import Mathlib

/-!
A verification development for `nose2dep` (`src/nose2dep/core.py`), a nose2
plugin that orders tests according to declared hard (`after`) and soft
(`before`) dependencies and integer priorities, and gates each test at run
time on the recorded outcomes of its dependencies.

The embedding below models the module-level registry (`dependencies`,
`soft_dependencies`, `priorities`) as an explicit state value, the `depends`
decorator as a state-passing function returning the raised error (if any),
the `toposort` library's layer loop as a fuel-indexed total function, and the
runtime gate (`dependency_failed` / `dependency_ran` / `startTest`) as a pure
decision function over a recorded-outcome table.  Tests are identified by
their (short) names, exactly as the plugin does.
-/

namespace Nose2dep

/-- Code-point lexicographic comparison of character lists, which is how
Python compares strings. -/
def strLeChars : List Char → List Char → Bool
  | [], _ => true
  | _ :: _, [] => false
  | a :: as, b :: bs => a.toNat < b.toNat || (a.toNat == b.toNat && strLeChars as bs)

/-- Python string `<=` (lexicographic on code points). -/
def pyLe (a b : String) : Bool := strLeChars a.data b.data

/-- Python `str.upper` on the ASCII outcome strings the plugin renders. -/
def py_upper (s : String) : String := ⟨s.data.map Char.toUpper⟩

/-- `NoseDep.test_name` (the string part): `test_name.split('.')[-1]`, i.e.
the part of the name after the last dot. -/
def test_name (s : String) : String :=
  ⟨(s.data.reverse.takeWhile (fun c => decide (c ≠ '.'))).reverse⟩

/-- A Python `defaultdict(set)` keyed by test name, modelled as an
association list. -/
abbrev Graph := List (String × List String)

/-- The key list of a dict. -/
def keysOf (d : Graph) : List String := d.map Prod.fst

/-- Reading `d[k]` from a `defaultdict(set)`: the stored set, or the empty
set when the key is absent. -/
def lookupD (d : Graph) (k : String) : List String := (d.lookup k).getD []

/-- Python `set.add`. -/
def setAdd (s : List String) (v : String) : List String := if v ∈ s then s else s ++ [v]

/-- The mutation `d[k].add(v)` on a `defaultdict(set)`. -/
def dictAdd (d : Graph) (k v : String) : Graph :=
  if (d.lookup k).isSome then
    d.map (fun kv => (kv.1, if kv.1 = k then setAdd kv.2 v else kv.2))
  else d ++ [(k, [v])]

/-- The module-level mutable state of `nose2dep.core`: the hard-dependency
dict `dependencies`, the soft-dependency dict `soft_dependencies` (both
mapping a dependent test to its set of prerequisites), and `priorities`. -/
structure Registry where
  dependencies : Graph
  soft_dependencies : Graph
  priorities : List (String × Int)

/-- `default_priority = 50`. -/
def default_priority : Int := 50

/-- Reading `priorities[x]` (a `defaultdict(lambda: default_priority)`). -/
def prioOf (reg : Registry) (x : String) : Int :=
  (reg.priorities.lookup x).getD default_priority

/-- Python dict assignment `d[k] = v` on the priority dict. -/
def dictSet (d : List (String × Int)) (k : String) (v : Int) : List (String × Int) :=
  if (d.lookup k).isSome then d.map (fun kv => (kv.1, if kv.1 = k then v else kv.2))
  else d ++ [(k, v)]

/-- The error message `"Test '<name>' cannot depend on itself"`. -/
def selfMsg (name : String) : String := "Test '" ++ name ++ "' cannot depend on itself"

/-- The inner helper `handle_dep` of the `depends` decorator: process the
prerequisite names left to right; raise on a self-dependency; a `before`
prerequisite `p` records the soft edge `p` depends on `funcName`, an `after`
prerequisite `p` records the hard edge `funcName` depends on `p`.  Mutations
made before a raise persist, because the dicts are module-level state. -/
def handle_dep (funcName : String) (isBefore : Bool) :
    List String → Registry → Registry × Option String
  | [], reg => (reg, none)
  | p :: ps, reg =>
    if funcName = p then (reg, some (selfMsg funcName)) else
    handle_dep funcName isBefore ps
      (match isBefore with
        | true => { reg with soft_dependencies := dictAdd reg.soft_dependencies p funcName }
        | false => { reg with dependencies := dictAdd reg.dependencies funcName p })

/-- Python truthiness of the `priority` argument: `None` and `0` are falsy. -/
def prioTruthy : Option Int → Bool
  | none => false
  | some v => decide (v ≠ 0)

/-- The final `if priority:` of the decorator: store a truthy priority. -/
def applyPrio (reg : Registry) (funcName : String) (priority : Option Int) : Registry :=
  match priority with
  | some p =>
    if p ≠ 0 then { reg with priorities := dictSet reg.priorities funcName p } else reg
  | none => reg

/-- The `depends` decorator applied to a test called `funcName`, with `after`
and `before` already resolved to name lists.  Returns the updated registry
together with the raised error message, if any; the registry value returned
on error is the state the module globals are left in. -/
def depends (reg : Registry) (funcName : String) (after before : List String)
    (priority : Option Int) : Registry × Option String :=
  if after.isEmpty && before.isEmpty && !prioTruthy priority then
    (reg, some "depends decorator needs at least one argument")
  else
    match (handle_dep funcName true before reg).2 with
    | some e => ((handle_dep funcName true before reg).1, some e)
    | none =>
      match (handle_dep funcName false after (handle_dep funcName true before reg).1).2 with
      | some e =>
        ((handle_dep funcName false after (handle_dep funcName true before reg).1).1, some e)
      | none =>
        (applyPrio (handle_dep funcName false after (handle_dep funcName true before reg).1).1
          funcName priority, none)

/-- Set union on duplicate-free lists (Python set union `|=`). -/
def unionS (s1 s2 : List String) : List String :=
  s1 ++ s2.filter (fun v => decide (v ∉ s1))

/-- `merge_dicts d1 d2`: every key of either dict, mapped to the union of
its two sets. -/
def merge_dicts (d1 d2 : Graph) : Graph :=
  d1.map (fun kv => (kv.1, unionS kv.2 (lookupD d2 kv.1))) ++
    d2.filter (fun kv => (d1.lookup kv.1).isNone)

/-- The self-dependency discard loop of `toposort.toposort`
(`v.discard(k)`). -/
def discardSelf (data : Graph) : Graph :=
  data.map (fun kv => (kv.1, kv.2.filter (fun v => decide (v ≠ kv.1))))

/-- The `extra_items_in_deps` of `toposort.toposort`: items that appear in
some value set but not among the keys, each given an empty dependency set. -/
def extraItems (data : Graph) : Graph :=
  ((data.map Prod.snd).flatten.dedup.filter
    (fun v => decide (v ∉ keysOf data))).map (fun k => (k, ([] : List String)))

/-- The preamble of `toposort.toposort`: copy the dict, discard
self-dependencies, and add an empty-set entry for every item appearing only
inside a value set. -/
def prepare (data : Graph) : Graph :=
  discardSelf data ++ extraItems (discardSelf data)

/-- One round of `toposort`: the items whose dependency set is exhausted. -/
def orderedKeys (data : Graph) : List String :=
  (data.filter (fun kv => decide (kv.2 = []))).map Prod.fst

/-- One round of `toposort`: drop the emitted items and all edges to them. -/
def kahnStep (data : Graph) (ord : List String) : Graph :=
  (data.filter (fun kv => decide (kv.1 ∉ ord))).map
    (fun kv => (kv.1, kv.2.filter (fun v => decide (v ∉ ord))))

/-- The `while True` loop of `toposort.toposort`, with explicit fuel so the
function is structurally recursive.  Each productive round removes at least
one entry, so any fuel of at least `data.length` behaves like the unbounded
loop; `none` models `CircularDependencyError`. -/
def kahnFuel : Nat → Graph → Option (List (List String))
  | 0, data => if data = [] then some [] else none
  | n + 1, data =>
    if data = [] then some []
    else if orderedKeys data = [] then none
    else (kahnFuel n (kahnStep data (orderedKeys data))).map
      (fun rest => orderedKeys data :: rest)

/-- `toposort(data)`: `some` of the list of layers, or `none` where the
library raises `CircularDependencyError`. -/
def toposort (data : Graph) : Option (List (List String)) := kahnFuel data.length data

/-- The sort order given by the key `lambda x: (priorities[x], x)`. -/
def prioLE (reg : Registry) (a b : String) : Prop :=
  prioOf reg a < prioOf reg b ∨ (prioOf reg a = prioOf reg b ∧ pyLe a b = true)

instance prioLE.instDecidableRel (reg : Registry) : DecidableRel (prioLE reg) := fun a b =>
  decidable_of_iff
    (prioOf reg a < prioOf reg b ∨ (prioOf reg a = prioOf reg b ∧ pyLe a b = true)) Iff.rfl

/-- `sorted(g, key=lambda x: (priorities[x], x))`.  Python's `sorted` is a
stable sort; insertion sort is stable, and on this key (which is injective in
the name) every sort agrees anyway. -/
def sortPrio (reg : Registry) (l : List String) : List String :=
  List.insertionSort (prioLE reg) l

/-- `NoseDep.calculate_dependencies`: topologically sort the merged graph
into layers, sort each layer by `(priority, name)`, and concatenate. -/
def calculate_dependencies (reg : Registry) : Option (List String) :=
  (toposort (prepare (merge_dicts reg.dependencies reg.soft_dependencies))).map
    (fun layers => (layers.map (fun g => sortPrio reg g)).flatten)

/-- `lo_prio`. -/
def lo_prio (reg : Registry) (x : String) : Bool :=
  decide (prioOf reg x ≤ default_priority)

/-- `NoseDep.orderTests` on the key set of `all_tests` (the selected tests):
low-priority independent tests, then the dependency chain restricted to the
selected tests, then high-priority independent tests. -/
def orderTests (reg : Registry) (all_tests : List String) : Option (List String) :=
  (calculate_dependencies reg).map (fun order =>
    ((sortPrio reg all_tests).filter (fun t => decide (t ∉ order))).filter
        (lo_prio reg) ++
      order.filter (fun t => decide (t ∈ all_tests)) ++
      ((sortPrio reg all_tests).filter (fun t => decide (t ∉ order))).filter
        (fun t => !lo_prio reg t))

/-- The three possible decisions of `NoseDep.startTest` for a test about to
run (`skip` and `fail` carry the reason handed to the test framework). -/
inductive GateDecision where
  | run : GateDecision
  | skip : String → GateDecision
  | fail : String → GateDecision
deriving DecidableEq

/-- The union `dependencies[test] | soft_dependencies[test]` iterated in
`dependency_failed`. -/
def runtimeDeps (reg : Registry) (test : String) : List String :=
  unionS (lookupD reg.dependencies test) (lookupD reg.soft_dependencies test)

/-- The loop condition of `dependency_failed`:
`self.results.get(d) and self.results.get(d) != 'passed'` (both `None` and
the empty string are falsy in Python). -/
def failedCheck (results : List (String × String)) (i : String) : Bool :=
  match results.lookup (test_name i) with
  | some o => decide (o ≠ "") && decide (o ≠ "passed")
  | none => false

/-- `NoseDep.dependency_failed`: the skip reason from the first dependency
(hard or soft) with a recorded non-passing outcome, if any. -/
def dependency_failed (reg : Registry) (results : List (String × String))
    (test : String) : Option String :=
  ((runtimeDeps reg test).find? (failedCheck results)).map (fun i =>
    "Required test '" ++ test_name i ++ "' " ++
      py_upper ((results.lookup (test_name i)).getD ""))

/-- `NoseDep.dependency_ran`: the failure reason from the first hard
dependency with no recorded outcome, if any. -/
def dependency_ran (reg : Registry) (results : List (String × String))
    (test : String) : Option String :=
  ((lookupD reg.dependencies test).find?
      (fun i => (results.lookup (test_name i)).isNone)).map
    (fun i => "Required test '" ++ test_name i ++ "' did not run (does it exist?)")

/-- `NoseDep.startTest`: skip if some dependency failed, else fail if some
hard dependency never ran, else run the test normally. -/
def startTest (reg : Registry) (results : List (String × String))
    (test : String) : GateDecision :=
  match dependency_failed reg results (test_name test) with
  | some r => GateDecision.skip r
  | none =>
    match dependency_ran reg results (test_name test) with
    | some r => GateDecision.fail r
    | none => GateDecision.run

/-- The combined dependency graph `merge_dicts(dependencies, soft_dependencies)`
handed to `toposort`. -/
def regGraph (reg : Registry) : Graph :=
  merge_dicts reg.dependencies reg.soft_dependencies

/-- An edge of the combined graph: `a` depends on `b`. -/
def EdgeOf (reg : Registry) (a b : String) : Prop := b ∈ lookupD (regGraph reg) a

instance (reg : Registry) (a b : String) : Decidable (EdgeOf reg a b) :=
  inferInstanceAs (Decidable (b ∈ lookupD (regGraph reg) a))

/-- A hard or soft edge exactly as stored in the registry. -/
def HardOrSoft (reg : Registry) (a b : String) : Prop :=
  b ∈ lookupD reg.dependencies a ∨ b ∈ lookupD reg.soft_dependencies a

/-- The node set of the combined graph: every test that appears as a
dependent or as a prerequisite. -/
def graphNodes (reg : Registry) : List String := keysOf (prepare (regGraph reg))

/-- The combined graph has no directed cycle. -/
def Acyclic (reg : Registry) : Prop := ∀ a, ¬ Relation.TransGen (EdgeOf reg) a a

/-- Registry well-formedness: the keys of each dependency dict are distinct,
as they are in any Python dict. -/
def Registry.WF (reg : Registry) : Prop :=
  (keysOf reg.dependencies).Nodup ∧ (keysOf reg.soft_dependencies).Nodup

instance (reg : Registry) : Decidable reg.WF :=
  inferInstanceAs (Decidable ((keysOf reg.dependencies).Nodup ∧
    (keysOf reg.soft_dependencies).Nodup))

/-- In the list `l`, `b` occurs and `a` occurs strictly later. -/
def Precedes (l : List String) (b a : String) : Prop :=
  ∃ l1 l2, l = l1 ++ b :: l2 ∧ a ∈ l2

/-- The outcome strings of the data model: what the test runner records. -/
def IsOutcome (o : String) : Prop :=
  o = "passed" ∨ o = "failed" ∨ o = "error" ∨ o = "skipped"

/-- An edge of a raw graph value: `a` depends on `b`. -/
def edgeData (data : Graph) (a b : String) : Prop := b ∈ lookupD data a

/-- An edge of the combined graph between two distinct tests (the sorter
discards self-loops before running; the registration API refuses to create
them in the first place). -/
def ProperEdge (reg : Registry) (a b : String) : Prop := EdgeOf reg a b ∧ a ≠ b

/-- The invariants `toposort`'s working dict enjoys on every round: distinct
keys, every referenced item is itself a key, and no self-dependencies. -/
structure GoodData (data : Graph) : Prop where
  nodupKeys : (keysOf data).Nodup
  valuesKeys : ∀ kv ∈ data, ∀ d ∈ kv.2, d ∈ keysOf data
  noSelf : ∀ kv ∈ data, kv.1 ∉ kv.2

/-- In a layer list, `b` lives in a strictly earlier layer than `a`. -/
inductive EarlierLayer : List (List String) → String → String → Prop where
  | head {L rest b a} : b ∈ L → a ∈ rest.flatten → EarlierLayer (L :: rest) b a
  | tail {L rest b a} : EarlierLayer rest b a → EarlierLayer (L :: rest) b a

/-- Two working dicts that are the same dict up to Python's unspecified
set/dict iteration orders. -/
structure DataEquiv (d1 d2 : Graph) : Prop where
  nd1 : (keysOf d1).Nodup
  nd2 : (keysOf d2).Nodup
  keys_iff : ∀ k, k ∈ keysOf d1 ↔ k ∈ keysOf d2
  deps_iff : ∀ k b, b ∈ lookupD d1 k ↔ b ∈ lookupD d2 k

/-- Two registries holding the same hard edges, soft edges and priorities:
the same mathematical dicts, regardless of representation order. -/
structure SameContents (r1 r2 : Registry) : Prop where
  wf1 : r1.WF
  wf2 : r2.WF
  hard_keys : ∀ k, k ∈ keysOf r1.dependencies ↔ k ∈ keysOf r2.dependencies
  hard_deps : ∀ k b, b ∈ lookupD r1.dependencies k ↔ b ∈ lookupD r2.dependencies k
  soft_keys : ∀ k, k ∈ keysOf r1.soft_dependencies ↔ k ∈ keysOf r2.soft_dependencies
  soft_deps : ∀ k b,
    b ∈ lookupD r1.soft_dependencies k ↔ b ∈ lookupD r2.soft_dependencies k
  prio : ∀ t, prioOf r1 t = prioOf r2 t

/-- A choice of one outgoing dependency for each item (used to chase a cycle
when the layer loop gets stuck). -/
def nextDep (data : Graph) (x : String) : String := (lookupD data x).headD x

example : test_name "pkg.mod.test_a" = "test_a" := by decide

example : calculate_dependencies ⟨[("b", ["a"])], [], []⟩ = some ["a", "b"] := by decide

example :
    calculate_dependencies ⟨[("a", ["b"]), ("b", ["a"])], [], []⟩ = none := by decide

example :
    orderTests ⟨[("b", ["a"])], [], [("z", 10)]⟩ ["b", "c", "z"] =
      some ["z", "c", "b"] := by decide

/-! Association-list lookup facts used throughout. -/

theorem lookup_mapVal {β : Type} (g : String → β → β) (d : List (String × β)) (k : String) :
    (d.map (fun kv => (kv.1, g kv.1 kv.2))).lookup k = (d.lookup k).map (g k) := by
  induction d with
  | nil => rfl
  | cons kv rest ih =>
    by_cases h : k = kv.1
    · subst h
      simp [List.lookup]
    · have hb : (k == kv.1) = false := beq_eq_false_iff_ne.mpr h
      simp [List.lookup, hb, ih]

theorem lookup_append {β : Type} (l1 l2 : List (String × β)) (k : String) :
    (l1 ++ l2).lookup k = ((l1.lookup k).orElse (fun _ => l2.lookup k)) := by
  induction l1 with
  | nil => rfl
  | cons kv rest ih =>
    by_cases h : k = kv.1
    · subst h
      simp [List.lookup]
    · have hb : (k == kv.1) = false := beq_eq_false_iff_ne.mpr h
      simp [List.lookup, hb, ih]

theorem lookup_eq_none_iff {β : Type} (d : List (String × β)) (k : String) :
    d.lookup k = none ↔ k ∉ d.map Prod.fst := by
  induction d with
  | nil => simp [List.lookup]
  | cons kv rest ih =>
    by_cases h : k = kv.1
    · subst h
      simp [List.lookup]
    · have hb : (k == kv.1) = false := beq_eq_false_iff_ne.mpr h
      simp [List.lookup, hb, ih, h]

theorem lookup_isSome_iff {β : Type} (d : List (String × β)) (k : String) :
    (d.lookup k).isSome = true ↔ k ∈ d.map Prod.fst := by
  constructor
  · intro h
    by_contra hk
    rw [(lookup_eq_none_iff d k).mpr hk] at h
    simp at h
  · intro h
    cases hl : d.lookup k with
    | none => exact absurd h ((lookup_eq_none_iff d k).mp hl)
    | some v => rfl

theorem lookup_mem {β : Type} {d : List (String × β)} {k : String} {v : β}
    (h : d.lookup k = some v) : (k, v) ∈ d := by
  induction d with
  | nil => simp [List.lookup] at h
  | cons kv rest ih =>
    by_cases hk : k = kv.1
    · subst hk
      simp [List.lookup] at h
      rw [← h]
      exact List.mem_cons_self _ _
    · have hb : (k == kv.1) = false := beq_eq_false_iff_ne.mpr hk
      simp only [List.lookup, hb] at h
      exact List.mem_cons_of_mem _ (ih h)

theorem mem_lookup {β : Type} {d : List (String × β)} {kv : String × β}
    (hn : (d.map Prod.fst).Nodup) (h : kv ∈ d) : d.lookup kv.1 = some kv.2 := by
  induction d with
  | nil => simp at h
  | cons hd rest ih =>
    rw [List.map_cons, List.nodup_cons] at hn
    rcases List.mem_cons.mp h with h | h
    · subst h
      simp [List.lookup]
    · have hne : kv.1 ≠ hd.1 := by
        intro he
        exact hn.1 (he ▸ List.mem_map_of_mem Prod.fst h)
      have hb : (kv.1 == hd.1) = false := beq_eq_false_iff_ne.mpr hne
      simp only [List.lookup, hb]
      exact ih hn.2 h

theorem lookupD_mem_keys {d : Graph} {k b : String} (h : b ∈ lookupD d k) :
    k ∈ keysOf d := by
  by_cases hk : k ∈ keysOf d
  · exact hk
  · have : d.lookup k = none := (lookup_eq_none_iff d k).mpr hk
    simp [lookupD, this] at h

/-! Facts about `dictAdd` and `dictSet`. -/

theorem mem_setAdd {s : List String} {v x : String} :
    x ∈ setAdd s v ↔ x ∈ s ∨ x = v := by
  unfold setAdd
  split
  · rename_i hv
    constructor
    · exact Or.inl
    · rintro (h | rfl)
      · exact h
      · exact hv
  · simp

theorem mem_lookupD_dictAdd (d : Graph) (k v k' x : String) :
    x ∈ lookupD (dictAdd d k v) k' ↔ x ∈ lookupD d k' ∨ (k' = k ∧ x = v) := by
  unfold dictAdd
  by_cases hmem : k ∈ keysOf d
  · have hs : (d.lookup k).isSome = true := (lookup_isSome_iff d k).mpr hmem
    rw [if_pos hs]
    unfold lookupD
    rw [lookup_mapVal (fun k1 v1 => if k1 = k then setAdd v1 v else v1) d k']
    by_cases hk : k' = k
    · subst hk
      rcases Option.isSome_iff_exists.mp hs with ⟨w, hw⟩
      simp [hw, mem_setAdd]
    · simp only [hk, if_false, and_false, false_and, or_false]
      cases d.lookup k' <;> simp
  · have hs : ¬((d.lookup k).isSome = true) := by
      rw [(lookup_eq_none_iff d k).mpr hmem]
      simp
    rw [if_neg hs]
    unfold lookupD
    rw [lookup_append]
    by_cases hk : k' = k
    · subst hk
      rw [(lookup_eq_none_iff d k').mpr hmem]
      simp [List.lookup]
    · have hb : (k' == k) = false := beq_eq_false_iff_ne.mpr hk
      simp only [List.lookup, hb, hk, false_and, or_false]
      cases d.lookup k' <;> simp [Option.orElse]

theorem dictAdd_mem_self (d : Graph) (k v : String) : v ∈ lookupD (dictAdd d k v) k := by
  rw [mem_lookupD_dictAdd]
  exact Or.inr ⟨rfl, rfl⟩

theorem dictAdd_mono {d : Graph} {k' x : String} (k v : String)
    (h : x ∈ lookupD d k') : x ∈ lookupD (dictAdd d k v) k' := by
  rw [mem_lookupD_dictAdd]
  exact Or.inl h

theorem lookup_dictSet_self (d : List (String × Int)) (k : String) (v : Int) :
    (dictSet d k v).lookup k = some v := by
  unfold dictSet
  by_cases hmem : k ∈ d.map Prod.fst
  · have hs : (d.lookup k).isSome = true := (lookup_isSome_iff d k).mpr hmem
    rw [if_pos hs]
    rw [lookup_mapVal (fun k1 v1 => if k1 = k then v else v1) d k]
    rcases Option.isSome_iff_exists.mp hs with ⟨w, hw⟩
    simp [hw]
  · have hs : ¬((d.lookup k).isSome = true) := by
      rw [(lookup_eq_none_iff d k).mpr hmem]
      simp
    rw [if_neg hs]
    rw [lookup_append, (lookup_eq_none_iff d k).mpr hmem]
    simp [List.lookup]

/-! Facts about `handle_dep` and `depends` (the registration API). -/

theorem handle_dep_self (funcName : String) (isBefore : Bool) :
    ∀ ps : List String, funcName ∈ ps → ∀ reg : Registry,
    (handle_dep funcName isBefore ps reg).2 = some (selfMsg funcName) := by
  intro ps
  induction ps with
  | nil => intro h; simp at h
  | cons p rest ih =>
    intro h reg
    unfold handle_dep
    by_cases hp : funcName = p
    · simp [hp]
    · rcases List.mem_cons.mp h with h' | h'
      · exact absurd h' hp
      · simp only [hp, if_false]
        exact ih h' _

theorem handle_dep_no_self (funcName : String) (isBefore : Bool) :
    ∀ ps : List String, funcName ∉ ps → ∀ reg : Registry,
    (handle_dep funcName isBefore ps reg).2 = none := by
  intro ps
  induction ps with
  | nil => intro _ reg; rfl
  | cons p rest ih =>
    intro h reg
    have hp : funcName ≠ p := fun he => h (he ▸ List.mem_cons_self p rest)
    unfold handle_dep
    simp only [hp, if_false]
    exact ih (fun hm => h (List.mem_cons_of_mem p hm)) _

theorem handle_dep_priorities (funcName : String) (isBefore : Bool) (ps : List String) :
    ∀ reg : Registry,
    (handle_dep funcName isBefore ps reg).1.priorities = reg.priorities := by
  induction ps with
  | nil => intro reg; rfl
  | cons p rest ih =>
    intro reg
    unfold handle_dep
    by_cases hp : funcName = p
    · simp [hp]
    · simp only [hp, if_false]
      rw [ih]
      cases isBefore <;> rfl

theorem handle_dep_true_dependencies (funcName : String) (ps : List String) :
    ∀ reg : Registry,
    (handle_dep funcName true ps reg).1.dependencies = reg.dependencies := by
  induction ps with
  | nil => intro reg; rfl
  | cons p rest ih =>
    intro reg
    unfold handle_dep
    by_cases hp : funcName = p
    · simp [hp]
    · simp only [hp, if_false]
      rw [ih]

theorem handle_dep_false_soft (funcName : String) (ps : List String) :
    ∀ reg : Registry,
    (handle_dep funcName false ps reg).1.soft_dependencies = reg.soft_dependencies := by
  induction ps with
  | nil => intro reg; rfl
  | cons p rest ih =>
    intro reg
    unfold handle_dep
    by_cases hp : funcName = p
    · simp [hp]
    · simp only [hp, if_false]
      rw [ih]

theorem handle_dep_soft_mono (funcName : String) (isBefore : Bool) (ps : List String)
    {k x : String} : ∀ reg : Registry, x ∈ lookupD reg.soft_dependencies k →
    x ∈ lookupD (handle_dep funcName isBefore ps reg).1.soft_dependencies k := by
  induction ps with
  | nil => intro reg h; exact h
  | cons p rest ih =>
    intro reg h
    unfold handle_dep
    by_cases hp : funcName = p
    · simpa [hp] using h
    · simp only [hp, if_false]
      apply ih
      cases isBefore
      · exact h
      · exact dictAdd_mono p funcName h

theorem handle_dep_hard_mono (funcName : String) (isBefore : Bool) (ps : List String)
    {k x : String} : ∀ reg : Registry, x ∈ lookupD reg.dependencies k →
    x ∈ lookupD (handle_dep funcName isBefore ps reg).1.dependencies k := by
  induction ps with
  | nil => intro reg h; exact h
  | cons p rest ih =>
    intro reg h
    unfold handle_dep
    by_cases hp : funcName = p
    · simpa [hp] using h
    · simp only [hp, if_false]
      apply ih
      cases isBefore
      · exact dictAdd_mono funcName p h
      · exact h

theorem handle_dep_before_adds (funcName : String) :
    ∀ ps : List String, funcName ∉ ps → ∀ reg : Registry, ∀ b ∈ ps,
    funcName ∈ lookupD (handle_dep funcName true ps reg).1.soft_dependencies b := by
  intro ps
  induction ps with
  | nil => intro _ reg b hb; simp at hb
  | cons p rest ih =>
    intro hns reg b hb
    have hp : funcName ≠ p := fun he => hns (he ▸ List.mem_cons_self p rest)
    unfold handle_dep
    simp only [hp, if_false]
    rcases List.mem_cons.mp hb with hb' | hb'
    · subst hb'
      exact handle_dep_soft_mono funcName true rest _ (dictAdd_mem_self _ _ _)
    · exact ih (fun hm => hns (List.mem_cons_of_mem p hm)) _ b hb'

theorem handle_dep_after_partial (funcName : String) (post : List String) :
    ∀ pre : List String, funcName ∉ pre → ∀ reg : Registry,
    (handle_dep funcName false (pre ++ funcName :: post) reg).2 = some (selfMsg funcName) ∧
    (handle_dep funcName false (pre ++ funcName :: post) reg).1.soft_dependencies =
      reg.soft_dependencies ∧
    ∀ a ∈ pre,
      a ∈ lookupD (handle_dep funcName false (pre ++ funcName :: post) reg).1.dependencies
        funcName := by
  intro pre
  induction pre with
  | nil =>
    intro _ reg
    refine ⟨?_, ?_, ?_⟩
    · unfold handle_dep
      simp
    · unfold handle_dep
      simp
    · intro a ha; simp at ha
  | cons p rest ih =>
    intro hpre reg
    have hp : funcName ≠ p := fun he => hpre (he ▸ List.mem_cons_self p rest)
    have hrest : funcName ∉ rest := fun hm => hpre (List.mem_cons_of_mem p hm)
    have hstep := ih hrest { reg with dependencies := dictAdd reg.dependencies funcName p }
    refine ⟨?_, ?_, ?_⟩
    · unfold handle_dep
      simp only [List.cons_append, hp, if_false]
      exact hstep.1
    · unfold handle_dep
      simp only [List.cons_append, hp, if_false]
      exact hstep.2.1
    · intro a ha
      unfold handle_dep
      simp only [List.cons_append, hp, if_false]
      rcases List.mem_cons.mp ha with ha' | ha'
      · subst ha'
        refine handle_dep_hard_mono funcName false _ _ ?_
        exact dictAdd_mem_self _ _ _
      · exact hstep.2.2 a ha'

theorem depends_priorities_of_not_truthy (reg : Registry) (name : String)
    (after before : List String) (priority : Option Int)
    (hp : prioTruthy priority = false) :
    (depends reg name after before priority).1.priorities = reg.priorities := by
  unfold depends
  by_cases hc : (after.isEmpty && before.isEmpty && !prioTruthy priority) = true
  · rw [if_pos hc]
  · rw [if_neg hc]
    rcases hh1 : handle_dep name true before reg with ⟨reg1, e1⟩
    have h1 : reg1.priorities = reg.priorities := by
      have h := handle_dep_priorities name true before reg
      rw [hh1] at h
      exact h
    cases e1 with
    | some e => simpa using h1
    | none =>
      dsimp only
      rcases hh2 : handle_dep name false after reg1 with ⟨reg2, e2⟩
      have h2 : reg2.priorities = reg1.priorities := by
        have h := handle_dep_priorities name false after reg1
        rw [hh2] at h
        exact h
      cases e2 with
      | some e => simpa using h2.trans h1
      | none =>
        dsimp only
        cases priority with
        | none => simpa [applyPrio] using h2.trans h1
        | some p =>
          have hp0 : p = 0 := by
            by_contra hne
            simp [prioTruthy, hne] at hp
          subst hp0
          simp only [applyPrio]
          rw [if_neg (by simp)]
          simpa using h2.trans h1

/-- C9: registering a test whose `after` or `before` list names the test
itself always raises the self-dependency configuration error, for any test
name, any registry state and any priority argument. -/
theorem depends_self_dependency_error (reg : Registry) (name : String)
    (after before : List String) (priority : Option Int)
    (h : name ∈ after ∨ name ∈ before) :
    (depends reg name after before priority).2 = some (selfMsg name) := by
  have hne : ¬((after.isEmpty && before.isEmpty && !prioTruthy priority) = true) := by
    rcases h with h | h
    · have hnil : after ≠ [] := List.ne_nil_of_mem h
      simp [List.isEmpty_iff, hnil]
    · have hnil : before ≠ [] := List.ne_nil_of_mem h
      simp [List.isEmpty_iff, hnil]
  unfold depends
  rw [if_neg hne]
  by_cases hbefore : name ∈ before
  · rcases hh1 : handle_dep name true before reg with ⟨reg1, e1⟩
    have he1 : e1 = some (selfMsg name) := by
      have h' := handle_dep_self name true before hbefore reg
      rw [hh1] at h'
      exact h'
    subst he1
    simp
  · have hafter : name ∈ after := h.resolve_right hbefore
    rcases hh1 : handle_dep name true before reg with ⟨reg1, e1⟩
    have he1 : e1 = none := by
      have h' := handle_dep_no_self name true before hbefore reg
      rw [hh1] at h'
      exact h'
    subst he1
    dsimp only
    rcases hh2 : handle_dep name false after reg1 with ⟨reg2, e2⟩
    have he2 : e2 = some (selfMsg name) := by
      have h' := handle_dep_self name false after hafter reg1
      rw [hh2] at h'
      exact h'
    subst he2
    simp

theorem depends_self_dependency_error_witness :
    ("t" ∈ ["a", "t"] ∨ "t" ∈ ([] : List String)) ∧
    (depends ⟨[], [], []⟩ "t" ["a", "t"] [] none).2 = some (selfMsg "t") :=
  ⟨Or.inl (by decide),
    depends_self_dependency_error ⟨[], [], []⟩ "t" ["a", "t"] [] none
      (Or.inl (by decide))⟩

/-- C10: registration is not atomic on error.  When the self-dependency error
is raised because the test's own name occurs in the `after` list, every soft
edge induced by the `before` list and every hard edge for the `after` names
processed earlier in the list have already been added to the process-wide
registry, and the registry state returned with the error still contains
them. -/
theorem depends_partial_mutation_on_error (reg : Registry) (name : String)
    (pre post before : List String) (priority : Option Int)
    (hb : name ∉ before) (hpre : name ∉ pre) :
    (depends reg name (pre ++ name :: post) before priority).2 = some (selfMsg name) ∧
    (∀ b ∈ before, name ∈
      lookupD (depends reg name (pre ++ name :: post) before priority).1.soft_dependencies
        b) ∧
    (∀ a ∈ pre, a ∈
      lookupD (depends reg name (pre ++ name :: post) before priority).1.dependencies
        name) := by
  have hne : ¬(((pre ++ name :: post).isEmpty && before.isEmpty &&
      !prioTruthy priority) = true) := by
    simp
  unfold depends
  rw [if_neg hne]
  rcases hh1 : handle_dep name true before reg with ⟨reg1, e1⟩
  have he1 : e1 = none := by
    have h' := handle_dep_no_self name true before hb reg
    rw [hh1] at h'
    exact h'
  subst he1
  dsimp only
  have hadds : ∀ b ∈ before, name ∈ lookupD reg1.soft_dependencies b := by
    intro b hbb
    have h' := handle_dep_before_adds name before hb reg b hbb
    rw [hh1] at h'
    exact h'
  obtain ⟨he2, hsoft, hhard⟩ := handle_dep_after_partial name post pre hpre reg1
  rcases hh2 : handle_dep name false (pre ++ name :: post) reg1 with ⟨reg2, e2⟩
  rw [hh2] at he2 hsoft hhard
  have he2' : e2 = some (selfMsg name) := he2
  subst he2'
  dsimp only
  have hsoft' : reg2.soft_dependencies = reg1.soft_dependencies := hsoft
  refine ⟨rfl, ?_, ?_⟩
  · intro b hbb
    rw [hsoft']
    exact hadds b hbb
  · intro a ha
    exact hhard a ha

theorem depends_partial_mutation_on_error_witness :
    ("t" ∉ ["b1"]) ∧ ("t" ∉ ["a1"]) ∧
    ((depends ⟨[], [], []⟩ "t" (["a1"] ++ "t" :: ["a2"]) ["b1"] none).2 =
        some (selfMsg "t") ∧
      (∀ b ∈ ["b1"], "t" ∈
        lookupD (depends ⟨[], [], []⟩ "t" (["a1"] ++ "t" :: ["a2"]) ["b1"]
          none).1.soft_dependencies b) ∧
      (∀ a ∈ ["a1"], a ∈
        lookupD (depends ⟨[], [], []⟩ "t" (["a1"] ++ "t" :: ["a2"]) ["b1"]
          none).1.dependencies "t")) :=
  ⟨by decide, by decide,
    depends_partial_mutation_on_error ⟨[], [], []⟩ "t" ["a1"] ["a2"] ["b1"] none
      (by decide) (by decide)⟩

/-- C6 counterexample: a registration call that passes `priority=0` succeeds
but does not store that priority — `if priority:` treats `0` like an absent
argument — so the stored priority stays at the default 50, not the given 0. -/
theorem depends_priority_zero_not_stored :
    (depends ⟨[], [], []⟩ "t" ["a"] [] (some 0)).2 = none ∧
    prioOf (depends ⟨[], [], []⟩ "t" ["a"] [] (some 0)).1 "t" = 50 ∧
    ¬((50 : Int) = 0) := by
  refine ⟨by decide, by decide, by decide⟩

/-- C6 amended: for every registration call that does not raise, a *nonzero*
priority argument is stored exactly (overwriting any prior value); a priority
argument of `0` is ignored, and an absent priority leaves the priority dict
unchanged, so a test never given a priority keeps the default 50. -/
theorem depends_priority_amended (reg : Registry) (name : String)
    (after before : List String) (p : Int) :
    (p ≠ 0 → (depends reg name after before (some p)).2 = none →
      prioOf (depends reg name after before (some p)).1 name = p) ∧
    ((depends reg name after before none).1.priorities = reg.priorities) ∧
    ((depends reg name after before (some 0)).1.priorities = reg.priorities) ∧
    (reg.priorities.lookup name = none → prioOf reg name = 50) := by
  refine ⟨?_, ?_, ?_, ?_⟩
  · intro hp hok
    unfold depends at hok ⊢
    by_cases hc : ((after.isEmpty && before.isEmpty && !prioTruthy (some p)) = true)
    · rw [if_pos hc] at hok
      simp at hok
    · rw [if_neg hc] at hok ⊢
      rcases hh1 : handle_dep name true before reg with ⟨reg1, e1⟩
      rw [hh1] at hok
      cases e1 with
      | some e => simp at hok
      | none =>
        dsimp only
        dsimp only at hok
        rcases hh2 : handle_dep name false after reg1 with ⟨reg2, e2⟩
        rw [hh2] at hok
        cases e2 with
        | some e => simp at hok
        | none =>
          dsimp only
          simp only [applyPrio]
          rw [if_pos hp]
          unfold prioOf
          rw [lookup_dictSet_self]
          rfl
  · exact depends_priorities_of_not_truthy reg name after before none rfl
  · exact depends_priorities_of_not_truthy reg name after before (some 0) (by simp [prioTruthy])
  · intro h
    unfold prioOf
    rw [h]
    rfl

theorem depends_priority_amended_witness :
    ((7 : Int) ≠ 0) ∧ (depends ⟨[], [], []⟩ "t" ["a"] [] (some 7)).2 = none ∧
    prioOf (depends ⟨[], [], []⟩ "t" ["a"] [] (some 7)).1 "t" = 7 :=
  ⟨by decide, by decide,
    (depends_priority_amended ⟨[], [], []⟩ "t" ["a"] [] 7).1 (by decide) (by decide)⟩

/-! The runtime gate. -/

theorem mem_unionS {s1 s2 : List String} {x : String} :
    x ∈ unionS s1 s2 ↔ x ∈ s1 ∨ x ∈ s2 := by
  unfold unionS
  rw [List.mem_append, List.mem_filter]
  constructor
  · rintro (h | ⟨h, _⟩)
    · exact Or.inl h
    · exact Or.inr h
  · rintro (h | h)
    · exact Or.inl h
    · by_cases h1 : x ∈ s1
      · exact Or.inl h1
      · exact Or.inr ⟨h, by simpa using h1⟩

/-- C2: whenever some dependency (hard or soft) of the test about to run has
a recorded outcome other than `passed`, `startTest` decides to *skip* the
test — so its body never executes — with the reason string naming a failing
dependency and its upper-cased outcome; because `dependency_failed` is
consulted first, this holds even if some hard dependency also never ran. -/
theorem startTest_skip_on_failed_dependency (reg : Registry)
    (results : List (String × String)) (t : String)
    (h : ∃ i ∈ runtimeDeps reg (test_name t), ∃ o,
      results.lookup (test_name i) = some o ∧ IsOutcome o ∧ o ≠ "passed") :
    ∃ i ∈ runtimeDeps reg (test_name t), ∃ o,
      results.lookup (test_name i) = some o ∧ o ≠ "passed" ∧
      startTest reg results t =
        GateDecision.skip ("Required test '" ++ test_name i ++ "' " ++ py_upper o) := by
  obtain ⟨i, hi, o, ho, hout, hne⟩ := h
  have hne' : o ≠ "" := by
    rcases hout with rfl | rfl | rfl | rfl
    · exact absurd rfl hne
    all_goals decide
  have hcheck : failedCheck results i = true := by
    unfold failedCheck
    rw [ho]
    simp [hne, hne']
  rcases hfind : (runtimeDeps reg (test_name t)).find? (failedCheck results) with _ | j
  · exact absurd hcheck (by simpa using List.find?_eq_none.mp hfind i hi)
  · have hj1 : failedCheck results j = true := List.find?_some hfind
    have hj2 : j ∈ runtimeDeps reg (test_name t) := List.mem_of_find?_eq_some hfind
    unfold failedCheck at hj1
    rcases hlo : results.lookup (test_name j) with _ | oj
    · rw [hlo] at hj1
      simp at hj1
    · rw [hlo] at hj1
      simp only [Bool.and_eq_true, decide_eq_true_eq] at hj1
      refine ⟨j, hj2, oj, hlo, hj1.2, ?_⟩
      unfold startTest dependency_failed
      rw [hfind]
      simp [hlo]

theorem startTest_skip_on_failed_dependency_witness :
    (∃ i ∈ runtimeDeps ⟨[("t", ["a"])], [], []⟩ (test_name "t"), ∃ o,
      [("a", "failed")].lookup (test_name i) = some o ∧ IsOutcome o ∧ o ≠ "passed") ∧
    (∃ i ∈ runtimeDeps ⟨[("t", ["a"])], [], []⟩ (test_name "t"), ∃ o,
      [("a", "failed")].lookup (test_name i) = some o ∧ o ≠ "passed" ∧
      startTest ⟨[("t", ["a"])], [], []⟩ [("a", "failed")] "t" =
        GateDecision.skip ("Required test '" ++ test_name i ++ "' " ++ py_upper o)) :=
  ⟨⟨"a", by decide, "failed", by decide, Or.inr (Or.inl rfl), by decide⟩,
    startTest_skip_on_failed_dependency ⟨[("t", ["a"])], [], []⟩ [("a", "failed")] "t"
      ⟨"a", by decide, "failed", by decide, Or.inr (Or.inl rfl), by decide⟩⟩

/-- C3: when every dependency of the test about to run either passed or is
unrecorded, `startTest` decides to *fail* the test (with the
did-not-run reason) whenever some hard dependency has no recorded outcome,
and decides to *run* it whenever every hard dependency has a recorded
outcome — in particular a soft dependency that never ran does not trigger
the missing-dependency rule. -/
theorem startTest_fail_iff_missing_hard (reg : Registry)
    (results : List (String × String)) (t : String)
    (hall : ∀ i ∈ runtimeDeps reg (test_name t),
      results.lookup (test_name i) = none ∨ results.lookup (test_name i) = some "passed") :
    ((∃ i ∈ lookupD reg.dependencies (test_name t),
        results.lookup (test_name i) = none) →
      ∃ i ∈ lookupD reg.dependencies (test_name t),
        results.lookup (test_name i) = none ∧
        startTest reg results t = GateDecision.fail
          ("Required test '" ++ test_name i ++ "' did not run (does it exist?)")) ∧
    ((∀ i ∈ lookupD reg.dependencies (test_name t),
        (results.lookup (test_name i)).isSome = true) →
      startTest reg results t = GateDecision.run) := by
  have hfailed : (runtimeDeps reg (test_name t)).find? (failedCheck results) = none := by
    rw [List.find?_eq_none]
    intro i hi
    unfold failedCheck
    rcases hall i hi with h | h <;> rw [h] <;> simp
  constructor
  · rintro ⟨i, hi, hnone⟩
    have hcheck : ((results.lookup (test_name i)).isNone : Bool) = true := by
      rw [hnone]; rfl
    rcases hfind : (lookupD reg.dependencies (test_name t)).find?
        (fun i => (results.lookup (test_name i)).isNone) with _ | j
    · exact absurd hcheck (by simpa using List.find?_eq_none.mp hfind i hi)
    · have hj1 := List.find?_some hfind
      have hj2 : j ∈ lookupD reg.dependencies (test_name t) :=
        List.mem_of_find?_eq_some hfind
      simp only [Option.isNone_iff_eq_none] at hj1
      refine ⟨j, hj2, hj1, ?_⟩
      unfold startTest dependency_failed dependency_ran
      rw [hfailed, hfind]
      rfl
  · intro hranall
    have hran : (lookupD reg.dependencies (test_name t)).find?
        (fun i => (results.lookup (test_name i)).isNone) = none := by
      rw [List.find?_eq_none]
      intro i hi
      have hs := hranall i hi
      simp only [Option.isNone_iff_eq_none]
      exact Option.isSome_iff_ne_none.mp hs
    unfold startTest dependency_failed dependency_ran
    rw [hfailed, hran]
    rfl

theorem startTest_fail_iff_missing_hard_witness :
    (∀ i ∈ runtimeDeps ⟨[("t", ["a"])], [("t", ["s"])], []⟩ (test_name "t"),
      ([] : List (String × String)).lookup (test_name i) = none ∨
      ([] : List (String × String)).lookup (test_name i) = some "passed") ∧
    (∃ i ∈ lookupD (⟨[("t", ["a"])], [("t", ["s"])], []⟩ : Registry).dependencies
        (test_name "t"),
      ([] : List (String × String)).lookup (test_name i) = none ∧
      startTest ⟨[("t", ["a"])], [("t", ["s"])], []⟩ [] "t" = GateDecision.fail
        ("Required test '" ++ test_name i ++ "' did not run (does it exist?)")) :=
  ⟨by decide,
    (startTest_fail_iff_missing_hard ⟨[("t", ["a"])], [("t", ["s"])], []⟩ [] "t"
        (by decide)).1 ⟨"a", by decide, by decide⟩⟩

/-! Precedence in a duplicate-free list. -/

theorem Precedes_append_left (x : List String) {l : List String} {b a : String}
    (h : Precedes l b a) : Precedes (x ++ l) b a := by
  obtain ⟨l1, l2, rfl, ha⟩ := h
  exact ⟨x ++ l1, l2, by simp, ha⟩

theorem Precedes_of_mem (L1 L2 : List String) {b a : String}
    (hb : b ∈ L1) (ha : a ∈ L2) : Precedes (L1 ++ L2) b a := by
  obtain ⟨s, t, rfl⟩ := List.append_of_mem hb
  exact ⟨s, t ++ L2, by simp, List.mem_append_right _ ha⟩

theorem nodup_split_unique {a : String} :
    ∀ {u v u' v' : List String}, (u ++ a :: v).Nodup →
    u ++ a :: v = u' ++ a :: v' → u = u' ∧ v = v' := by
  intro u
  induction u with
  | nil =>
    intro v u' v' hn h2
    cases u' with
    | nil => simpa using h2
    | cons x u'' =>
      exfalso
      rw [List.nil_append, List.cons_append, List.cons.injEq] at h2
      obtain ⟨rfl, hv⟩ := h2
      have hmem : a ∈ v := hv ▸ List.mem_append_right _ (List.mem_cons_self _ _)
      rw [List.nil_append] at hn
      exact (List.nodup_cons.mp hn).1 hmem
  | cons x u ih =>
    intro v u' v' hn h2
    cases u' with
    | nil =>
      exfalso
      rw [List.nil_append, List.cons_append, List.cons.injEq] at h2
      obtain ⟨rfl, hv⟩ := h2
      have hmem : x ∈ u ++ x :: v :=
        List.mem_append_right _ (List.mem_cons_self _ _)
      rw [List.cons_append] at hn
      exact (List.nodup_cons.mp hn).1 hmem
    | cons y u'' =>
      rw [List.cons_append, List.cons_append, List.cons.injEq] at h2
      obtain ⟨rfl, h2⟩ := h2
      have hn' : (u ++ a :: v).Nodup := (List.nodup_cons.mp (by simpa using hn)).2
      obtain ⟨hu, hv⟩ := ih hn' h2
      exact ⟨by rw [hu], hv⟩

theorem Precedes_trans {l : List String} {a b c : String} (hn : l.Nodup)
    (h1 : Precedes l a b) (h2 : Precedes l b c) : Precedes l a c := by
  obtain ⟨u1, v1, he1, hb'⟩ := h1
  obtain ⟨u2, v2, he2, hc'⟩ := h2
  obtain ⟨p, q, rfl⟩ := List.append_of_mem hb'
  have he1' : l = (u1 ++ a :: p) ++ b :: q := by rw [he1]; simp
  have hn2 : (u2 ++ b :: v2).Nodup := he2 ▸ hn
  obtain ⟨hu, hv⟩ := nodup_split_unique hn2 (he2.symm.trans he1')
  refine ⟨u1, p ++ b :: q, he1, ?_⟩
  have : c ∈ q := hv ▸ hc'
  exact List.mem_append_right _ (List.mem_cons_of_mem _ this)

theorem Precedes_irrefl {l : List String} {a : String} (hn : l.Nodup) :
    ¬ Precedes l a a := by
  rintro ⟨u, v, rfl, ha⟩
  have hsub : (a :: v).Nodup := (List.nodup_append.mp hn).2.1
  exact (List.nodup_cons.mp hsub).1 ha

theorem Precedes_mem_left {l : List String} {b a : String} (h : Precedes l b a) :
    b ∈ l := by
  obtain ⟨l1, l2, rfl, _⟩ := h
  exact List.mem_append_right _ (List.mem_cons_self _ _)

/-! The `(priority, name)` sort order. -/

theorem char_toNat_inj {a b : Char} (h : a.toNat = b.toNat) : a = b :=
  Char.ext (UInt32.toNat.inj h)

theorem strLeChars_total : ∀ a b : List Char,
    strLeChars a b = true ∨ strLeChars b a = true := by
  intro a
  induction a with
  | nil => intro b; left; rfl
  | cons x xs ih =>
    intro b
    cases b with
    | nil => right; rfl
    | cons y ys =>
      unfold strLeChars
      rcases Nat.lt_trichotomy x.toNat y.toNat with h | h | h
      · left; simp [h]
      · rcases ih ys with h' | h'
        · left; simp [h, h']
        · right; simp [h, h']
      · right; simp [h]

theorem strLeChars_trans : ∀ a b c : List Char,
    strLeChars a b = true → strLeChars b c = true → strLeChars a c = true := by
  intro a
  induction a with
  | nil => intro b c _ _; rfl
  | cons x xs ih =>
    intro b c hab hbc
    cases b with
    | nil => simp [strLeChars] at hab
    | cons y ys =>
      cases c with
      | nil => simp [strLeChars] at hbc
      | cons z zs =>
        unfold strLeChars at hab hbc ⊢
        simp only [Bool.or_eq_true, Bool.and_eq_true, decide_eq_true_eq,
          beq_iff_eq] at hab hbc ⊢
        rcases hab with hab | ⟨hab, hab'⟩
        · rcases hbc with hbc | ⟨hbc, hbc'⟩
          · exact Or.inl (hab.trans hbc)
          · exact Or.inl (hbc ▸ hab)
        · rcases hbc with hbc | ⟨hbc, hbc'⟩
          · exact Or.inl (hab ▸ hbc)
          · exact Or.inr ⟨hab.trans hbc, ih ys zs hab' hbc'⟩

theorem strLeChars_antisymm : ∀ a b : List Char,
    strLeChars a b = true → strLeChars b a = true → a = b := by
  intro a
  induction a with
  | nil =>
    intro b _ hba
    cases b with
    | nil => rfl
    | cons y ys => simp [strLeChars] at hba
  | cons x xs ih =>
    intro b hab hba
    cases b with
    | nil => simp [strLeChars] at hab
    | cons y ys =>
      unfold strLeChars at hab hba
      simp only [Bool.or_eq_true, Bool.and_eq_true, decide_eq_true_eq,
        beq_iff_eq] at hab hba
      rcases hab with hab | ⟨hab, hab'⟩
      · rcases hba with hba | ⟨hba, _⟩
        · exact absurd (hab.trans hba) (Nat.lt_irrefl _)
        · exact absurd (hba ▸ hab) (Nat.lt_irrefl _)
      · rcases hba with hba | ⟨hba, hba'⟩
        · exact absurd (hab ▸ hba) (Nat.lt_irrefl _)
        · rw [char_toNat_inj hab, ih ys hab' hba']

theorem prioLE_total (reg : Registry) : ∀ a b, prioLE reg a b ∨ prioLE reg b a := by
  intro a b
  unfold prioLE
  rcases lt_trichotomy (prioOf reg a) (prioOf reg b) with h | h | h
  · exact Or.inl (Or.inl h)
  · rcases strLeChars_total a.data b.data with h' | h'
    · exact Or.inl (Or.inr ⟨h, h'⟩)
    · exact Or.inr (Or.inr ⟨h.symm, h'⟩)
  · exact Or.inr (Or.inl h)

theorem prioLE_trans (reg : Registry) : ∀ a b c,
    prioLE reg a b → prioLE reg b c → prioLE reg a c := by
  intro a b c hab hbc
  unfold prioLE at hab hbc ⊢
  rcases hab with hab | ⟨hab, hab'⟩
  · rcases hbc with hbc | ⟨hbc, _⟩
    · exact Or.inl (hab.trans hbc)
    · exact Or.inl (hbc ▸ hab)
  · rcases hbc with hbc | ⟨hbc, hbc'⟩
    · exact Or.inl (hab ▸ hbc)
    · exact Or.inr ⟨hab.trans hbc, strLeChars_trans _ _ _ hab' hbc'⟩

theorem prioLE_antisymm (reg : Registry) : ∀ a b,
    prioLE reg a b → prioLE reg b a → a = b := by
  intro a b hab hba
  unfold prioLE at hab hba
  rcases hab with hab | ⟨hab, hab'⟩
  · rcases hba with hba | ⟨hba, _⟩
    · exact absurd (hab.trans hba) (lt_irrefl _)
    · exact absurd (hba ▸ hab) (lt_irrefl _)
  · rcases hba with hba | ⟨hba, hba'⟩
    · exact absurd (hab ▸ hba) (lt_irrefl _)
    · exact String.ext (strLeChars_antisymm _ _ hab' hba')

theorem sortPrio_sorted (reg : Registry) (l : List String) :
    List.Sorted (prioLE reg) (sortPrio reg l) := by
  haveI : IsTotal String (prioLE reg) := ⟨prioLE_total reg⟩
  haveI : IsTrans String (prioLE reg) := ⟨prioLE_trans reg⟩
  exact List.sorted_insertionSort (prioLE reg) l

theorem sortPrio_perm (reg : Registry) (l : List String) :
    (sortPrio reg l).Perm l := List.perm_insertionSort (prioLE reg) l

theorem sortPrio_congr {r1 r2 : Registry} (hp : ∀ t, prioOf r1 t = prioOf r2 t)
    {l1 l2 : List String} (hperm : l1.Perm l2) :
    sortPrio r1 l1 = sortPrio r2 l2 := by
  haveI : IsAntisymm String (prioLE r1) := ⟨prioLE_antisymm r1⟩
  have hiff : ∀ a b, prioLE r2 a b → prioLE r1 a b := by
    intro a b h
    unfold prioLE at h ⊢
    rw [hp a, hp b]
    exact h
  refine List.eq_of_perm_of_sorted ?_ (sortPrio_sorted r1 l1) ?_
  · exact ((sortPrio_perm r1 l1).trans hperm).trans (sortPrio_perm r2 l2).symm
  · exact (sortPrio_sorted r2 l2).imp (fun h => hiff _ _ h)

theorem sortPrio_filter (reg : Registry) (p : String → Bool) (l : List String) :
    (sortPrio reg l).filter p = sortPrio reg (l.filter p) := by
  haveI : IsAntisymm String (prioLE reg) := ⟨prioLE_antisymm reg⟩
  refine List.eq_of_perm_of_sorted ?_ ?_ (sortPrio_sorted reg (l.filter p))
  · exact ((sortPrio_perm reg l).filter p).trans (sortPrio_perm reg (l.filter p)).symm
  · exact (sortPrio_sorted reg l).filter p

/-! Structure of the working dict: keys, `orderedKeys`, `kahnStep`. -/

theorem lookupD_eq_some {d : Graph} {k b : String} :
    b ∈ lookupD d k ↔ ∃ v, d.lookup k = some v ∧ b ∈ v := by
  unfold lookupD
  cases h : d.lookup k with
  | none => simp
  | some v => simp

theorem entries_inj {data : Graph} (hn : (keysOf data).Nodup)
    {kv kv' : String × List String} (h1 : kv ∈ data) (h2 : kv' ∈ data)
    (he : kv.1 = kv'.1) : kv = kv' := by
  have l1 := mem_lookup hn h1
  have l2 := mem_lookup hn h2
  rw [he] at l1
  rw [l1] at l2
  exact Prod.ext he (Option.some.inj l2)

theorem map_fst_filter_key (p : String → Bool) :
    ∀ data : Graph, (data.filter (fun kv => p kv.1)).map Prod.fst =
      (data.map Prod.fst).filter p := by
  intro data
  induction data with
  | nil => rfl
  | cons kv rest ih =>
    by_cases h : p kv.1 = true
    · simp [List.filter_cons, h, ih]
    · simp [List.filter_cons, h, ih]

theorem keysOf_mapVal (f : String × List String → List String) (data : Graph) :
    keysOf (data.map (fun kv => (kv.1, f kv))) = keysOf data := by
  unfold keysOf
  rw [List.map_map]
  rfl

theorem keysOf_kahnStep (data : Graph) (ord : List String) :
    keysOf (kahnStep data ord) = (keysOf data).filter (fun k => decide (k ∉ ord)) := by
  unfold kahnStep
  rw [keysOf_mapVal (fun kv => kv.2.filter (fun v => decide (v ∉ ord)))]
  unfold keysOf
  exact map_fst_filter_key (fun k => decide (k ∉ ord)) data

theorem orderedKeys_subset {data : Graph} {k : String} (h : k ∈ orderedKeys data) :
    k ∈ keysOf data := by
  unfold orderedKeys at h
  obtain ⟨kv, hkv, rfl⟩ := List.mem_map.mp h
  exact List.mem_map_of_mem Prod.fst (List.mem_filter.mp hkv).1

theorem orderedKeys_nodup {data : Graph} (hn : (keysOf data).Nodup) :
    (orderedKeys data).Nodup :=
  hn.sublist ((List.filter_sublist data).map Prod.fst)

theorem mem_orderedKeys_iff {data : Graph} (hn : (keysOf data).Nodup) (k : String) :
    k ∈ orderedKeys data ↔ k ∈ keysOf data ∧ lookupD data k = [] := by
  constructor
  · intro h
    obtain ⟨kv, hkv, rfl⟩ := List.mem_map.mp h
    obtain ⟨hmem, hemp⟩ := List.mem_filter.mp hkv
    refine ⟨List.mem_map_of_mem Prod.fst hmem, ?_⟩
    unfold lookupD
    rw [mem_lookup hn hmem]
    simpa using hemp
  · rintro ⟨hk, hl⟩
    obtain ⟨kv, hkv, rfl⟩ := List.mem_map.mp hk
    have : kv.2 = [] := by
      have h' := mem_lookup hn hkv
      unfold lookupD at hl
      rw [h'] at hl
      simpa using hl
    exact List.mem_map_of_mem Prod.fst (List.mem_filter.mpr ⟨hkv, by simp [this]⟩)

theorem empty_deps_of_mem_orderedKeys {data : Graph} (good : GoodData data)
    {kv : String × List String} (hkv : kv ∈ data) (h : kv.1 ∈ orderedKeys data) :
    kv.2 = [] := by
  obtain ⟨kv', hkv', he⟩ := List.mem_map.mp h
  obtain ⟨hmem, hemp⟩ := List.mem_filter.mp hkv'
  have := entries_inj good.nodupKeys hkv hmem he.symm
  rw [this]
  simpa using hemp

theorem mem_lookupD_kahnStep {data : Graph} (hn : (keysOf data).Nodup)
    (ord : List String) (k b : String) :
    b ∈ lookupD (kahnStep data ord) k ↔
      k ∉ ord ∧ b ∉ ord ∧ b ∈ lookupD data k := by
  constructor
  · intro hb
    obtain ⟨v, hv, hbv⟩ := lookupD_eq_some.mp hb
    have hkv := lookup_mem hv
    unfold kahnStep at hkv
    obtain ⟨kv, hkvf, heq⟩ := List.mem_map.mp hkv
    obtain ⟨hkvd, hkord⟩ := List.mem_filter.mp hkvf
    have hk1 : kv.1 = k := congrArg Prod.fst heq
    have hv2 : kv.2.filter (fun v => decide (v ∉ ord)) = v := congrArg Prod.snd heq
    rw [← hv2] at hbv
    obtain ⟨hbkv, hbord⟩ := List.mem_filter.mp hbv
    refine ⟨by simpa [hk1] using hkord, by simpa using hbord, ?_⟩
    rw [← hk1]
    unfold lookupD
    rw [mem_lookup hn hkvd]
    exact hbkv
  · rintro ⟨hkord, hbord, hb⟩
    obtain ⟨v, hv, hbv⟩ := lookupD_eq_some.mp hb
    have hkv := lookup_mem hv
    have hmem : ((k, v).1, (k, v).2.filter (fun x => decide (x ∉ ord))) ∈
        kahnStep data ord := by
      unfold kahnStep
      exact List.mem_map_of_mem _ (List.mem_filter.mpr ⟨hkv, by simpa using hkord⟩)
    have hnstep : (keysOf (kahnStep data ord)).Nodup := by
      rw [keysOf_kahnStep]
      exact hn.filter _
    have hl := mem_lookup hnstep hmem
    rw [lookupD_eq_some]
    exact ⟨_, hl, List.mem_filter.mpr ⟨hbv, by simpa using hbord⟩⟩

theorem GoodData_kahnStep {data : Graph} (good : GoodData data) (ord : List String) :
    GoodData (kahnStep data ord) := by
  refine ⟨?_, ?_, ?_⟩
  · rw [keysOf_kahnStep]
    exact good.nodupKeys.filter _
  · intro kv' hkv' d hd
    unfold kahnStep at hkv'
    obtain ⟨kv, hkvf, heq⟩ := List.mem_map.mp hkv'
    obtain ⟨hkvd, hkord⟩ := List.mem_filter.mp hkvf
    rw [← heq] at hd
    obtain ⟨hdkv, hdord⟩ := List.mem_filter.mp hd
    rw [keysOf_kahnStep]
    exact List.mem_filter.mpr ⟨good.valuesKeys kv hkvd d hdkv, hdord⟩
  · intro kv' hkv' hself
    unfold kahnStep at hkv'
    obtain ⟨kv, hkvf, heq⟩ := List.mem_map.mp hkv'
    obtain ⟨hkvd, _⟩ := List.mem_filter.mp hkvf
    rw [← heq] at hself
    simp only [] at hself
    exact good.noSelf kv hkvd (List.mem_of_mem_filter hself)

theorem length_kahnStep_lt {data : Graph} (hord : orderedKeys data ≠ []) :
    (kahnStep data (orderedKeys data)).length < data.length := by
  obtain ⟨k, hk⟩ := List.exists_mem_of_ne_nil _ hord
  obtain ⟨kv, hkvf, rfl⟩ := List.mem_map.mp hk
  have hkvd := (List.mem_filter.mp hkvf).1
  unfold kahnStep
  rw [List.length_map]
  rw [List.length_filter_lt_length_iff_exists]
  exact ⟨kv, hkvd, by simpa using hk⟩

/-! Structure of `merge_dicts` and of `toposort`'s preamble. -/

theorem lookup_filter_eq {β : Type} (p : String × β → Bool) (k : String) :
    ∀ l : List (String × β), (∀ kv ∈ l, kv.1 = k → p kv = true) →
    (l.filter p).lookup k = l.lookup k := by
  intro l
  induction l with
  | nil => intro _; rfl
  | cons kv rest ih =>
    intro hall
    by_cases hpk : p kv = true
    · rw [List.filter_cons_of_pos hpk]
      by_cases hk : k = kv.1
      · subst hk
        simp [List.lookup]
      · have hb : (k == kv.1) = false := beq_eq_false_iff_ne.mpr hk
        simp only [List.lookup, hb]
        exact ih (fun kv' h' => hall kv' (List.mem_cons_of_mem _ h'))
    · have hk : kv.1 ≠ k := fun he => hpk (hall kv (List.mem_cons_self _ _) he)
      rw [List.filter_cons_of_neg (by simpa using hpk)]
      have hb : (k == kv.1) = false := beq_eq_false_iff_ne.mpr (Ne.symm hk)
      rw [ih (fun kv' h' => hall kv' (List.mem_cons_of_mem _ h'))]
      simp [List.lookup, hb]

theorem mem_keysOf_iff {d : Graph} {k : String} :
    k ∈ keysOf d ↔ ∃ kv ∈ d, kv.1 = k := by
  unfold keysOf
  exact List.mem_map

theorem lookup_append_some {β : Type} {l1 : List (String × β)} {k : String} {v : β}
    (l2 : List (String × β)) (h : l1.lookup k = some v) :
    (l1 ++ l2).lookup k = some v := by
  rw [lookup_append, h]
  rfl

theorem lookup_append_none {β : Type} {l1 : List (String × β)} {k : String}
    (l2 : List (String × β)) (h : l1.lookup k = none) :
    (l1 ++ l2).lookup k = l2.lookup k := by
  rw [lookup_append, h]
  rfl

theorem mem_lookupD_merge (d1 d2 : Graph) (k b : String) :
    b ∈ lookupD (merge_dicts d1 d2) k ↔ b ∈ lookupD d1 k ∨ b ∈ lookupD d2 k := by
  unfold merge_dicts lookupD
  cases hl : d1.lookup k with
  | some v =>
    have h1 : (d1.map (fun kv =>
        (kv.1, unionS kv.2 ((d2.lookup kv.1).getD [])))).lookup k =
        some (unionS v ((d2.lookup k).getD [])) := by
      rw [lookup_mapVal (fun k1 v1 => unionS v1 ((d2.lookup k1).getD [])) d1 k, hl]
      rfl
    rw [lookup_append_some _ h1]
    simp only [Option.getD_some]
    rw [mem_unionS]
  | none =>
    have h1 : (d1.map (fun kv =>
        (kv.1, unionS kv.2 ((d2.lookup kv.1).getD [])))).lookup k = none := by
      rw [lookup_mapVal (fun k1 v1 => unionS v1 ((d2.lookup k1).getD [])) d1 k, hl]
      rfl
    rw [lookup_append_none _ h1, lookup_filter_eq _ k d2 ?side]
    case side =>
      intro kv hkv he
      rw [he, hl]
      rfl
    simp

theorem mem_keysOf_merge (d1 d2 : Graph) (k : String) :
    k ∈ keysOf (merge_dicts d1 d2) ↔ k ∈ keysOf d1 ∨ k ∈ keysOf d2 := by
  unfold merge_dicts keysOf
  rw [List.map_append, List.mem_append, List.map_map]
  have h1 : (Prod.fst ∘ fun kv : String × List String =>
      (kv.1, unionS kv.2 (lookupD d2 kv.1))) = Prod.fst := rfl
  rw [h1]
  constructor
  · rintro (h | h)
    · exact Or.inl h
    · obtain ⟨kv, hkv, rfl⟩ := List.mem_map.mp h
      exact Or.inr (List.mem_map_of_mem Prod.fst (List.mem_of_mem_filter hkv))
  · rintro (h | h)
    · exact Or.inl h
    · by_cases h1m : k ∈ d1.map Prod.fst
      · exact Or.inl h1m
      · obtain ⟨kv, hkv, rfl⟩ := List.mem_map.mp h
        refine Or.inr (List.mem_map_of_mem Prod.fst (List.mem_filter.mpr ⟨hkv, ?_⟩))
        rw [(lookup_eq_none_iff d1 kv.1).mpr h1m]
        rfl

theorem keysOf_merge_nodup {d1 d2 : Graph} (h1 : (keysOf d1).Nodup)
    (h2 : (keysOf d2).Nodup) : (keysOf (merge_dicts d1 d2)).Nodup := by
  unfold merge_dicts keysOf
  rw [List.map_append, List.map_map]
  have he : (Prod.fst ∘ fun kv : String × List String =>
      (kv.1, unionS kv.2 (lookupD d2 kv.1))) = Prod.fst := rfl
  rw [he, List.nodup_append]
  refine ⟨h1, h2.sublist ((List.filter_sublist d2).map Prod.fst), ?_⟩
  intro k hk1 hk2
  obtain ⟨kv, hkv, rfl⟩ := List.mem_map.mp hk2
  have hnone := (List.mem_filter.mp hkv).2
  rw [Option.isNone_iff_eq_none, lookup_eq_none_iff] at hnone
  exact hnone hk1

theorem extraItems_value_nil {data : Graph} {kv : String × List String}
    (h : kv ∈ extraItems data) : kv.2 = [] := by
  unfold extraItems at h
  obtain ⟨x, _, rfl⟩ := List.mem_map.mp h
  rfl

theorem lookup_discardSelf (data : Graph) (k : String) :
    (discardSelf data).lookup k =
      (data.lookup k).map (fun v => v.filter (fun x => decide (x ≠ k))) := by
  unfold discardSelf
  rw [lookup_mapVal (fun k1 v1 => v1.filter (fun x => decide (x ≠ k1))) data k]

theorem keysOf_discardSelf (data : Graph) : keysOf (discardSelf data) = keysOf data :=
  keysOf_mapVal _ data

theorem mem_lookupD_prepare (data : Graph) (k b : String) :
    b ∈ lookupD (prepare data) k ↔ b ∈ lookupD data k ∧ b ≠ k := by
  unfold prepare lookupD
  cases hl : data.lookup k with
  | some v =>
    have h1 : (discardSelf data).lookup k =
        some (v.filter (fun x => decide (x ≠ k))) := by
      rw [lookup_discardSelf, hl]
      rfl
    rw [lookup_append_some _ h1]
    simp only [Option.getD_some]
    rw [List.mem_filter]
    simp
  | none =>
    have h1 : (discardSelf data).lookup k = none := by
      rw [lookup_discardSelf, hl]
      rfl
    rw [lookup_append_none _ h1]
    simp only [Option.getD_none, List.not_mem_nil, false_and, iff_false]
    intro hmem
    cases hx : (extraItems (discardSelf data)).lookup k with
    | none => rw [hx] at hmem; simp at hmem
    | some v =>
      rw [hx] at hmem
      have hv := extraItems_value_nil (lookup_mem hx)
      simp only [] at hv
      rw [hv] at hmem
      simp at hmem

theorem mem_keysOf_prepare {data : Graph} (hn : (keysOf data).Nodup) (k : String) :
    k ∈ keysOf (prepare data) ↔
      k ∈ keysOf data ∨ ∃ a, k ∈ lookupD data a ∧ k ≠ a := by
  unfold prepare keysOf
  rw [List.map_append, List.mem_append]
  have hd : (discardSelf data).map Prod.fst = keysOf data := keysOf_discardSelf data
  rw [hd]
  have hvals : ∀ x : String, (x ∈ ((discardSelf data).map Prod.snd).flatten ↔
      ∃ a, x ∈ lookupD data a ∧ x ≠ a) := by
    intro x
    rw [List.mem_flatten]
    constructor
    · rintro ⟨l, hl, hx⟩
      obtain ⟨kv', hkv', rfl⟩ := List.mem_map.mp hl
      unfold discardSelf at hkv'
      obtain ⟨kv, hkv, rfl⟩ := List.mem_map.mp hkv'
      simp only [] at hx
      obtain ⟨hxv, hxne⟩ := List.mem_filter.mp hx
      refine ⟨kv.1, ?_, by simpa using hxne⟩
      unfold lookupD
      rw [mem_lookup hn hkv]
      exact hxv
    · rintro ⟨a, hxa, hxne⟩
      obtain ⟨v, hv, hxv⟩ := lookupD_eq_some.mp hxa
      have hkv := lookup_mem hv
      refine ⟨v.filter (fun y => decide (y ≠ a)), ?_, ?_⟩
      · refine List.mem_map.mpr ⟨(a, v.filter (fun y => decide (y ≠ a))), ?_, rfl⟩
        unfold discardSelf
        exact List.mem_map.mpr ⟨(a, v), hkv, rfl⟩
      · exact List.mem_filter.mpr ⟨hxv, by simpa using hxne⟩
  constructor
  · rintro (h | h)
    · exact Or.inl h
    · unfold extraItems at h
      rw [List.map_map] at h
      obtain ⟨x, hx, rfl⟩ := List.mem_map.mp h
      obtain ⟨hxd, _⟩ := List.mem_filter.mp (by exact hx)
      exact Or.inr ((hvals _).mp (List.mem_dedup.mp hxd))
  · intro h
    by_cases hk : k ∈ keysOf data
    · exact Or.inl hk
    · rcases h with h | h
      · exact absurd h hk
      · refine Or.inr ?_
        unfold extraItems
        rw [List.map_map]
        refine List.mem_map.mpr ⟨k, ?_, rfl⟩
        refine List.mem_filter.mpr ⟨List.mem_dedup.mpr ((hvals k).mpr h), ?_⟩
        rw [keysOf_discardSelf]
        simpa using hk

theorem keysOf_prepare_nodup {data : Graph} (hn : (keysOf data).Nodup) :
    (keysOf (prepare data)).Nodup := by
  unfold prepare keysOf
  rw [List.map_append, List.nodup_append]
  have hd : (discardSelf data).map Prod.fst = keysOf data := keysOf_discardSelf data
  rw [hd]
  unfold extraItems
  rw [List.map_map]
  have he : (Prod.fst ∘ fun k : String => (k, ([] : List String))) = id := rfl
  rw [he, List.map_id]
  refine ⟨hn, (List.nodup_dedup _).filter _, ?_⟩
  intro x hx1 hx2
  have := (List.mem_filter.mp hx2).2
  rw [keysOf_discardSelf] at this
  simp at this
  exact this hx1

theorem GoodData_prepare {data : Graph} (hn : (keysOf data).Nodup) :
    GoodData (prepare data) := by
  refine ⟨keysOf_prepare_nodup hn, ?_, ?_⟩
  · intro kv' hkv' d hd
    rcases List.mem_append.mp hkv' with hmem | hmem
    · unfold discardSelf at hmem
      obtain ⟨kv, hkv, rfl⟩ := List.mem_map.mp hmem
      simp only [] at hd
      obtain ⟨hdv, hdne⟩ := List.mem_filter.mp hd
      rw [mem_keysOf_prepare hn]
      refine Or.inr ⟨kv.1, ?_, by simpa using hdne⟩
      unfold lookupD
      rw [mem_lookup hn hkv]
      exact hdv
    · rw [extraItems_value_nil hmem] at hd
      simp at hd
  · intro kv' hkv' hself
    rcases List.mem_append.mp hkv' with hmem | hmem
    · unfold discardSelf at hmem
      obtain ⟨kv, hkv, rfl⟩ := List.mem_map.mp hmem
      simp only [] at hself
      have := (List.mem_filter.mp hself).2
      simp at this
    · rw [extraItems_value_nil hmem] at hself
      simp at hself

/-! Soundness of the layer loop. -/

theorem flatten_mem_of_forall₂ {L1 L2 : List (List String)}
    (h : List.Forall₂ List.Perm L1 L2) {x : String} :
    x ∈ L1.flatten ↔ x ∈ L2.flatten := by
  induction h with
  | nil => exact Iff.rfl
  | cons h12 hrest ih =>
    rw [List.flatten_cons, List.flatten_cons, List.mem_append, List.mem_append,
      h12.mem_iff, ih]

theorem flatten_perm_of_forall₂ {L1 L2 : List (List String)}
    (h : List.Forall₂ List.Perm L1 L2) : L1.flatten.Perm L2.flatten := by
  induction h with
  | nil => exact List.Perm.refl _
  | cons h12 hrest ih =>
    rw [List.flatten_cons, List.flatten_cons]
    exact h12.append ih

theorem earlier_precedes {layers layers' : List (List String)} {b a : String}
    (h : EarlierLayer layers b a) (hper : List.Forall₂ List.Perm layers layers') :
    Precedes layers'.flatten b a := by
  induction h generalizing layers' with
  | head hb ha =>
    cases hper with
    | cons h12 hrest =>
      rw [List.flatten_cons]
      exact Precedes_of_mem _ _ (h12.mem_iff.mp hb)
        ((flatten_mem_of_forall₂ hrest).mp ha)
  | tail h ih =>
    cases hper with
    | cons h12 hrest =>
      rw [List.flatten_cons]
      exact Precedes_append_left _ (ih hrest)

theorem kahnFuel_sound : ∀ (fuel : Nat) (data : Graph), data.length ≤ fuel →
    GoodData data → ∀ layers, kahnFuel fuel data = some layers →
    layers.flatten.Nodup ∧ (∀ x, x ∈ layers.flatten ↔ x ∈ keysOf data) ∧
    (∀ kv ∈ data, ∀ d ∈ kv.2, EarlierLayer layers d kv.1) := by
  intro fuel
  induction fuel with
  | zero =>
    intro data hlen good layers h
    have hdata : data = [] := List.length_eq_zero.mp (Nat.le_zero.mp hlen)
    subst hdata
    rw [show kahnFuel 0 [] = some [] from rfl] at h
    obtain rfl := Option.some.inj h
    refine ⟨List.nodup_nil, by simp [keysOf], by simp⟩
  | succ n ih =>
    intro data hlen good layers h
    by_cases hdata : data = []
    · subst hdata
      rw [show kahnFuel (n + 1) [] = some [] from rfl] at h
      obtain rfl := Option.some.inj h
      refine ⟨List.nodup_nil, by simp [keysOf], by simp⟩
    · have heq : kahnFuel (n + 1) data = (if orderedKeys data = [] then none
          else (kahnFuel n (kahnStep data (orderedKeys data))).map
            (fun rest => orderedKeys data :: rest)) := by
        simp only [kahnFuel, if_neg hdata]
      rw [heq] at h
      by_cases hord : orderedKeys data = []
      · rw [if_pos hord] at h
        simp at h
      · rw [if_neg hord] at h
        rw [Option.map_eq_some'] at h
        obtain ⟨rest, hrec, rfl⟩ := h
        have hlt : (kahnStep data (orderedKeys data)).length < data.length :=
          length_kahnStep_lt hord
        have hlen' : (kahnStep data (orderedKeys data)).length ≤ n := by omega
        have good' := GoodData_kahnStep good (orderedKeys data)
        obtain ⟨ihnodup, ihmem, ihlay⟩ := ih _ hlen' good' rest hrec
        have hkeys := keysOf_kahnStep data (orderedKeys data)
        refine ⟨?_, ?_, ?_⟩
        · rw [List.flatten_cons, List.nodup_append]
          refine ⟨orderedKeys_nodup good.nodupKeys, ihnodup, ?_⟩
          intro x hx hx'
          have hxk := (ihmem x).mp hx'
          rw [hkeys] at hxk
          have hxno := (List.mem_filter.mp hxk).2
          simp at hxno
          exact hxno hx
        · intro x
          rw [List.flatten_cons, List.mem_append, ihmem x, hkeys]
          constructor
          · rintro (hx | hx)
            · exact orderedKeys_subset hx
            · exact (List.mem_filter.mp hx).1
          · intro hx
            by_cases hxo : x ∈ orderedKeys data
            · exact Or.inl hxo
            · exact Or.inr (List.mem_filter.mpr ⟨hx, by simpa using hxo⟩)
        · intro kv hkv d hd
          by_cases hk1 : kv.1 ∈ orderedKeys data
          · rw [empty_deps_of_mem_orderedKeys good hkv hk1] at hd
            simp at hd
          · have hkv' : (kv.1, kv.2.filter
                (fun v => decide (v ∉ orderedKeys data))) ∈
                kahnStep data (orderedKeys data) := by
              unfold kahnStep
              exact List.mem_map_of_mem _
                (List.mem_filter.mpr ⟨hkv, by simpa using hk1⟩)
            by_cases hdo : d ∈ orderedKeys data
            · refine EarlierLayer.head hdo ?_
              rw [ihmem kv.1, hkeys]
              exact List.mem_filter.mpr
                ⟨List.mem_map_of_mem Prod.fst hkv, by simpa using hk1⟩
            · refine EarlierLayer.tail ?_
              exact ihlay _ hkv' d (List.mem_filter.mpr ⟨hd, by simpa using hdo⟩)

/-! A stuck layer loop exhibits a cycle. -/

theorem valuesKeys_lookupD {data : Graph} (good : GoodData data) {k b : String}
    (h : b ∈ lookupD data k) : b ∈ keysOf data := by
  obtain ⟨v, hv, hbv⟩ := lookupD_eq_some.mp h
  exact good.valuesKeys _ (lookup_mem hv) b hbv

theorem cycle_of_stuck {data : Graph} (good : GoodData data) (hne : data ≠ [])
    (hstuck : orderedKeys data = []) :
    ∃ a, Relation.TransGen (edgeData data) a a := by
  have hnonempty : ∀ k ∈ keysOf data, lookupD data k ≠ [] := by
    intro k hk hl
    have hmem : k ∈ orderedKeys data :=
      (mem_orderedKeys_iff good.nodupKeys k).mpr ⟨hk, hl⟩
    rw [hstuck] at hmem
    simp at hmem
  have hstep : ∀ k ∈ keysOf data,
      edgeData data k (nextDep data k) ∧ nextDep data k ∈ keysOf data := by
    intro k hk
    cases hl : lookupD data k with
    | nil => exact absurd hl (hnonempty k hk)
    | cons b bs =>
      have hb : b ∈ lookupD data k := by
        rw [hl]
        exact List.mem_cons_self _ _
      have hbk : b ∈ keysOf data := valuesKeys_lookupD good hb
      unfold nextDep edgeData
      rw [hl]
      exact ⟨List.mem_cons_self b bs, hbk⟩
  obtain ⟨kv0, hkv0⟩ := List.exists_mem_of_ne_nil data hne
  have hx0 : kv0.1 ∈ keysOf data := List.mem_map_of_mem Prod.fst hkv0
  have hiter : ∀ m : Nat, (nextDep data)^[m] kv0.1 ∈ keysOf data := by
    intro m
    induction m with
    | zero => exact hx0
    | succ m ihm =>
      rw [Function.iterate_succ_apply']
      exact (hstep _ ihm).2
  have htg : ∀ a k : Nat, Relation.TransGen (edgeData data)
      ((nextDep data)^[a] kv0.1) ((nextDep data)^[a + k + 1] kv0.1) := by
    intro a k
    induction k with
    | zero =>
      refine Relation.TransGen.single ?_
      rw [Nat.add_zero, Function.iterate_succ_apply']
      exact (hstep _ (hiter a)).1
    | succ k ihk =>
      refine Relation.TransGen.tail ihk ?_
      have harith : a + (k + 1) + 1 = (a + k + 1) + 1 := by omega
      rw [harith, Function.iterate_succ_apply' (nextDep data) (a + k + 1) kv0.1]
      exact (hstep _ (hiter (a + k + 1))).1
  have hcard : (keysOf data).toFinset.card <
      (Finset.univ : Finset (Fin ((keysOf data).length + 1))).card := by
    rw [Finset.card_univ, Fintype.card_fin]
    exact Nat.lt_succ_of_le (List.toFinset_card_le _)
  have hmaps : ∀ i ∈ (Finset.univ : Finset (Fin ((keysOf data).length + 1))),
      (nextDep data)^[i.val] kv0.1 ∈ (keysOf data).toFinset := by
    intro i _
    exact List.mem_toFinset.mpr (hiter i.val)
  obtain ⟨i, _, j, _, hij, heq⟩ :=
    Finset.exists_ne_map_eq_of_card_lt_of_maps_to hcard hmaps
  rcases Nat.lt_or_ge i.val j.val with hlt | hge
  · refine ⟨(nextDep data)^[i.val] kv0.1, ?_⟩
    have ht := htg i.val (j.val - i.val - 1)
    have harith : i.val + (j.val - i.val - 1) + 1 = j.val := by omega
    rw [harith] at ht
    rw [← heq] at ht
    exact ht
  · have hlt : j.val < i.val := by
      have : i.val ≠ j.val := fun h => hij (Fin.val_injective h)
      omega
    refine ⟨(nextDep data)^[j.val] kv0.1, ?_⟩
    have ht := htg j.val (i.val - j.val - 1)
    have harith : j.val + (i.val - j.val - 1) + 1 = i.val := by omega
    rw [harith] at ht
    rw [heq] at ht
    exact ht

theorem kahnFuel_stuck : ∀ (fuel : Nat) (data : Graph), data.length ≤ fuel →
    GoodData data → kahnFuel fuel data = none →
    ∃ a, Relation.TransGen (edgeData data) a a := by
  intro fuel
  induction fuel with
  | zero =>
    intro data hlen good h
    have hdata : data = [] := List.length_eq_zero.mp (Nat.le_zero.mp hlen)
    subst hdata
    rw [show kahnFuel 0 [] = some [] from rfl] at h
    simp at h
  | succ n ih =>
    intro data hlen good h
    by_cases hdata : data = []
    · subst hdata
      rw [show kahnFuel (n + 1) [] = some [] from rfl] at h
      simp at h
    · have heq : kahnFuel (n + 1) data = (if orderedKeys data = [] then none
          else (kahnFuel n (kahnStep data (orderedKeys data))).map
            (fun rest => orderedKeys data :: rest)) := by
        simp only [kahnFuel, if_neg hdata]
      rw [heq] at h
      by_cases hord : orderedKeys data = []
      · exact cycle_of_stuck good hdata hord
      · rw [if_neg hord] at h
        have hrec : kahnFuel n (kahnStep data (orderedKeys data)) = none := by
          cases hr : kahnFuel n (kahnStep data (orderedKeys data)) with
          | none => rfl
          | some rest =>
            rw [hr] at h
            simp at h
        have hlt := length_kahnStep_lt hord
        have hlen' : (kahnStep data (orderedKeys data)).length ≤ n := by omega
        obtain ⟨a, ha⟩ := ih _ hlen' (GoodData_kahnStep good _) hrec
        refine ⟨a, Relation.TransGen.mono ?_ ha⟩
        intro x y hxy
        unfold edgeData at hxy ⊢
        exact ((mem_lookupD_kahnStep good.nodupKeys _ x y).mp hxy).2.2

/-! The Order Calculator: soundness, completeness and cycle detection. -/

theorem calculate_success {reg : Registry} (hwf : reg.WF) {order : List String}
    (h : calculate_dependencies reg = some order) :
    order.Nodup ∧ (∀ x, x ∈ order ↔ x ∈ graphNodes reg) ∧
    (∀ a b, EdgeOf reg a b → b ≠ a → Precedes order b a) := by
  have hmn : (keysOf (regGraph reg)).Nodup := keysOf_merge_nodup hwf.1 hwf.2
  have good : GoodData (prepare (regGraph reg)) := GoodData_prepare hmn
  unfold calculate_dependencies toposort at h
  rw [Option.map_eq_some'] at h
  obtain ⟨layers, hlayers, rfl⟩ := h
  obtain ⟨hnodup, hmem, hlay⟩ := kahnFuel_sound _ _ (le_refl _) good layers hlayers
  have hper : List.Forall₂ List.Perm layers (layers.map (sortPrio reg)) := by
    rw [List.forall₂_map_right_iff, List.forall₂_same]
    intro x _
    exact (sortPrio_perm reg x).symm
  refine ⟨?_, ?_, ?_⟩
  · exact (flatten_perm_of_forall₂ hper).nodup hnodup
  · intro x
    rw [← flatten_mem_of_forall₂ hper]
    exact hmem x
  · intro a b hedge hne
    obtain ⟨v, hv, hbv⟩ := lookupD_eq_some.mp hedge
    have hkv : (a, v) ∈ regGraph reg := lookup_mem hv
    have hkv' : ((a, v).1, (a, v).2.filter (fun x => decide (x ≠ (a, v).1))) ∈
        prepare (regGraph reg) :=
      List.mem_append_left _ (List.mem_map_of_mem _ hkv)
    have hd : b ∈ (a, v).2.filter (fun x => decide (x ≠ (a, v).1)) :=
      List.mem_filter.mpr ⟨hbv, by simpa using hne⟩
    exact earlier_precedes (hlay _ hkv' b hd) hper

theorem calculate_none {reg : Registry} (hwf : reg.WF)
    (h : calculate_dependencies reg = none) :
    ∃ a, Relation.TransGen (ProperEdge reg) a a := by
  have hmn : (keysOf (regGraph reg)).Nodup := keysOf_merge_nodup hwf.1 hwf.2
  have good : GoodData (prepare (regGraph reg)) := GoodData_prepare hmn
  unfold calculate_dependencies toposort at h
  rw [Option.map_eq_none'] at h
  obtain ⟨a, ha⟩ := kahnFuel_stuck _ _ (le_refl _) good h
  refine ⟨a, Relation.TransGen.mono ?_ ha⟩
  intro x y hxy
  unfold edgeData at hxy
  obtain ⟨hmem', hne⟩ := (mem_lookupD_prepare (regGraph reg) x y).mp hxy
  exact ⟨hmem', Ne.symm hne⟩

theorem acyclic_of_rank (reg : Registry) (rank : String → Nat)
    (h : ∀ a ∈ keysOf (regGraph reg), ∀ b ∈ lookupD (regGraph reg) a,
      rank b < rank a) : Acyclic reg := by
  intro a ha
  have hmono : ∀ x y, Relation.TransGen (EdgeOf reg) x y → rank y < rank x := by
    intro x y hxy
    induction hxy with
    | single h1 => exact h _ (lookupD_mem_keys h1) _ h1
    | tail hab hbc ih => exact lt_trans (h _ (lookupD_mem_keys hbc) _ hbc) ih
  exact absurd (hmono a a ha) (lt_irrefl _)

/-- C1: for every well-formed registry whose combined hard/soft graph is
acyclic, `calculate_dependencies` succeeds and its output is a topological
order — for every hard or soft edge `a` depends on `b`, `b` appears strictly
before `a` — and the output lists every node of the graph exactly once. -/
theorem calculate_dependencies_topological (reg : Registry) (hwf : reg.WF)
    (hacyc : Acyclic reg) :
    ∃ order, calculate_dependencies reg = some order ∧ order.Nodup ∧
      (∀ x, x ∈ order ↔ x ∈ graphNodes reg) ∧
      (∀ a b, HardOrSoft reg a b → Precedes order b a) := by
  cases h : calculate_dependencies reg with
  | none =>
    exfalso
    obtain ⟨a, ha⟩ := calculate_none hwf h
    exact hacyc a (Relation.TransGen.mono (fun x y hxy => hxy.1) ha)
  | some order =>
    obtain ⟨hnd, hmem, hedge⟩ := calculate_success hwf h
    refine ⟨order, rfl, hnd, hmem, ?_⟩
    intro a b hhs
    have he : EdgeOf reg a b := (mem_lookupD_merge _ _ a b).mpr hhs
    have hne : b ≠ a := by
      rintro rfl
      exact hacyc b (Relation.TransGen.single he)
    exact hedge a b he hne

theorem calculate_dependencies_topological_witness :
    (⟨[("b", ["a"])], [], []⟩ : Registry).WF ∧
    Acyclic ⟨[("b", ["a"])], [], []⟩ ∧
    (∃ order, calculate_dependencies ⟨[("b", ["a"])], [], []⟩ = some order ∧
      order.Nodup ∧
      (∀ x, x ∈ order ↔ x ∈ graphNodes ⟨[("b", ["a"])], [], []⟩) ∧
      (∀ a b, HardOrSoft ⟨[("b", ["a"])], [], []⟩ a b → Precedes order b a)) :=
  ⟨by decide,
    acyclic_of_rank _ (fun s => if s = "a" then 0 else 1) (by decide),
    calculate_dependencies_topological _ (by decide)
      (acyclic_of_rank _ (fun s => if s = "a" then 0 else 1) (by decide))⟩

/-- C7: for every well-formed registry whose combined hard/soft graph
contains a cycle through distinct tests — including an indirect cycle mixing
soft and hard edges — `calculate_dependencies` reports the fatal
`CircularDependencyError` (modelled as `none`) and produces no order.
(A degenerate one-node self-loop cannot be registered at all: `depends`
rejects self-dependencies, see C9.) -/
theorem calculate_dependencies_cycle_error (reg : Registry) (hwf : reg.WF)
    (hcyc : ∃ a, Relation.TransGen (ProperEdge reg) a a) :
    calculate_dependencies reg = none := by
  cases h : calculate_dependencies reg with
  | none => rfl
  | some order =>
    exfalso
    obtain ⟨hnd, _, hedge⟩ := calculate_success hwf h
    obtain ⟨a, ha⟩ := hcyc
    have hmono : ∀ x y, Relation.TransGen (ProperEdge reg) x y →
        Precedes order y x := by
      intro x y hxy
      induction hxy with
      | single h1 => exact hedge _ _ h1.1 (Ne.symm h1.2)
      | tail hab hbc ih =>
        exact Precedes_trans hnd (hedge _ _ hbc.1 (Ne.symm hbc.2)) ih
    exact Precedes_irrefl hnd (hmono a a ha)

theorem calculate_dependencies_cycle_error_witness :
    (⟨[("a", ["b"]), ("b", ["a"])], [], []⟩ : Registry).WF ∧
    (∃ x, Relation.TransGen
      (ProperEdge ⟨[("a", ["b"]), ("b", ["a"])], [], []⟩) x x) ∧
    calculate_dependencies ⟨[("a", ["b"]), ("b", ["a"])], [], []⟩ = none :=
  ⟨by decide,
    ⟨"a", Relation.TransGen.head (b := "b") ⟨by decide, by decide⟩
      (Relation.TransGen.single ⟨by decide, by decide⟩)⟩,
    calculate_dependencies_cycle_error _ (by decide)
      ⟨"a", Relation.TransGen.head (b := "b") ⟨by decide, by decide⟩
        (Relation.TransGen.single ⟨by decide, by decide⟩)⟩⟩

/-! The Test Set Orderer. -/

/-- C4: for every selected test set (with distinct names, as Python dict keys
are) and every well-formed registry on which the Order Calculator succeeds,
`orderTests` returns a permutation of the selected tests: nothing is added —
in particular no absent hard prerequisite is auto-included — and nothing is
dropped. -/
theorem orderTests_permutation (reg : Registry) (all_tests : List String)
    (hwf : reg.WF) (hnd : all_tests.Nodup) (out : List String)
    (h : orderTests reg all_tests = some out) :
    out.Perm all_tests ∧ ∀ x, x ∈ out ↔ x ∈ all_tests := by
  unfold orderTests at h
  rw [Option.map_eq_some'] at h
  obtain ⟨order, hcalc, hout⟩ := h
  obtain ⟨hond, _, _⟩ := calculate_success hwf hcalc
  have hperm : out.Perm all_tests := by
    rw [← hout]
    have hstep1 : (((sortPrio reg all_tests).filter
          (fun t => decide (t ∉ order))).filter (lo_prio reg) ++
        ((sortPrio reg all_tests).filter
          (fun t => decide (t ∉ order))).filter (fun t => !lo_prio reg t)).Perm
        ((sortPrio reg all_tests).filter (fun t => decide (t ∉ order))) :=
      List.filter_append_perm _ _
    have hnodeps : ((sortPrio reg all_tests).filter
        (fun t => decide (t ∉ order))).Perm
        (all_tests.filter (fun t => decide (t ∉ order))) :=
      (sortPrio_perm reg all_tests).filter _
    have hdeps : (order.filter (fun t => decide (t ∈ all_tests))).Perm
        (all_tests.filter (fun t => decide (t ∈ order))) := by
      refine List.perm_of_nodup_nodup_toFinset_eq (hond.filter _) (hnd.filter _) ?_
      ext x
      simp only [List.mem_toFinset, List.mem_filter, decide_eq_true_eq]
      exact ⟨fun hx => ⟨hx.2, hx.1⟩, fun hx => ⟨hx.2, hx.1⟩⟩
    have hfun : (fun t => decide (t ∉ order)) =
        (fun t => !decide (t ∈ order)) := by
      funext t
      exact decide_not
    refine ((List.perm_append_comm.append_right _).trans ?_)
    rw [List.append_assoc]
    refine ((hstep1.append_left _).trans ?_)
    refine ((hnodeps.append_left _).trans ?_)
    refine ((hdeps.append_right _).trans ?_)
    rw [hfun]
    exact List.filter_append_perm _ all_tests
  exact ⟨hperm, fun x => hperm.mem_iff⟩

theorem orderTests_permutation_witness :
    (⟨[("b", ["a"])], [], [("z", 10)]⟩ : Registry).WF ∧
    (["b", "c", "z"] : List String).Nodup ∧
    orderTests ⟨[("b", ["a"])], [], [("z", 10)]⟩ ["b", "c", "z"] =
      some ["z", "c", "b"] ∧
    ((["z", "c", "b"] : List String).Perm ["b", "c", "z"] ∧
      ∀ x, x ∈ (["z", "c", "b"] : List String) ↔
        x ∈ (["b", "c", "z"] : List String)) :=
  ⟨by decide, by decide, by decide,
    orderTests_permutation ⟨[("b", ["a"])], [], [("z", 10)]⟩ ["b", "c", "z"]
      (by decide) (by decide) ["z", "c", "b"] (by decide)⟩

/-- C5: the Test Set Orderer's output decomposes as
`lowPriority ++ chainTests ++ highPriority`, where `chainTests` is the
subsequence of the dependency order restricted to the selected tests in the
dependency order's relative order, and the flanks are the selected tests
absent from the dependency order — those with priority ≤ 50 on the left,
those with priority > 50 on the right — each sorted by `(priority, name)`
ascending. -/
theorem orderTests_decomposition (reg : Registry) (all_tests out order : List String)
    (h1 : orderTests reg all_tests = some out)
    (h2 : calculate_dependencies reg = some order) :
    out = sortPrio reg (all_tests.filter
        (fun t => lo_prio reg t && decide (t ∉ order))) ++
      order.filter (fun t => decide (t ∈ all_tests)) ++
      sortPrio reg (all_tests.filter
        (fun t => !lo_prio reg t && decide (t ∉ order))) := by
  unfold orderTests at h1
  rw [h2] at h1
  simp only [Option.map_some'] at h1
  rw [← Option.some.inj h1]
  rw [List.filter_filter, List.filter_filter, sortPrio_filter, sortPrio_filter]

theorem orderTests_decomposition_witness :
    orderTests ⟨[("b", ["a"])], [], [("z", 10)]⟩ ["b", "c", "z"] =
      some ["z", "c", "b"] ∧
    calculate_dependencies ⟨[("b", ["a"])], [], [("z", 10)]⟩ = some ["a", "b"] ∧
    (["z", "c", "b"] : List String) =
      sortPrio ⟨[("b", ["a"])], [], [("z", 10)]⟩ (["b", "c", "z"].filter
        (fun t => lo_prio ⟨[("b", ["a"])], [], [("z", 10)]⟩ t &&
          decide (t ∉ (["a", "b"] : List String)))) ++
      (["a", "b"] : List String).filter
        (fun t => decide (t ∈ (["b", "c", "z"] : List String))) ++
      sortPrio ⟨[("b", ["a"])], [], [("z", 10)]⟩ (["b", "c", "z"].filter
        (fun t => !lo_prio ⟨[("b", ["a"])], [], [("z", 10)]⟩ t &&
          decide (t ∉ (["a", "b"] : List String)))) :=
  ⟨by decide, by decide,
    orderTests_decomposition ⟨[("b", ["a"])], [], [("z", 10)]⟩ ["b", "c", "z"]
      ["z", "c", "b"] ["a", "b"] (by decide) (by decide)⟩

/-! Determinism of the Order Calculator: the output depends only on the
contents of the registry, not on Python's set/dict iteration orders. -/

theorem nodup_perm_of_mem_iff {l1 l2 : List String} (h1 : l1.Nodup) (h2 : l2.Nodup)
    (h : ∀ x, x ∈ l1 ↔ x ∈ l2) : l1.Perm l2 := by
  refine List.perm_of_nodup_nodup_toFinset_eq h1 h2 ?_
  ext x
  simp only [List.mem_toFinset]
  exact h x

theorem DataEquiv.keys_perm {d1 d2 : Graph} (h : DataEquiv d1 d2) :
    (keysOf d1).Perm (keysOf d2) :=
  nodup_perm_of_mem_iff h.nd1 h.nd2 h.keys_iff

theorem DataEquiv.length_eq {d1 d2 : Graph} (h : DataEquiv d1 d2) :
    d1.length = d2.length := by
  have hp := h.keys_perm.length_eq
  simpa [keysOf] using hp

theorem DataEquiv.nil_iff {d1 d2 : Graph} (h : DataEquiv d1 d2) :
    d1 = [] ↔ d2 = [] := by
  constructor
  · intro he
    have hl := h.length_eq
    rw [he] at hl
    exact List.length_eq_zero.mp hl.symm
  · intro he
    have hl := h.length_eq
    rw [he] at hl
    exact List.length_eq_zero.mp hl

theorem lookupD_empty_iff_of_equiv {d1 d2 : Graph} (h : DataEquiv d1 d2)
    (k : String) : lookupD d1 k = [] ↔ lookupD d2 k = [] := by
  rw [List.eq_nil_iff_forall_not_mem, List.eq_nil_iff_forall_not_mem]
  constructor
  · intro hall b hb
    exact hall b ((h.deps_iff k b).mpr hb)
  · intro hall b hb
    exact hall b ((h.deps_iff k b).mp hb)

theorem orderedKeys_perm_of_equiv {d1 d2 : Graph} (h : DataEquiv d1 d2) :
    (orderedKeys d1).Perm (orderedKeys d2) := by
  refine nodup_perm_of_mem_iff (orderedKeys_nodup h.nd1) (orderedKeys_nodup h.nd2) ?_
  intro k
  rw [mem_orderedKeys_iff h.nd1, mem_orderedKeys_iff h.nd2, h.keys_iff k,
    lookupD_empty_iff_of_equiv h k]

theorem equiv_kahnStep {d1 d2 : Graph} (h : DataEquiv d1 d2)
    {ord1 ord2 : List String} (hord : ∀ x, x ∈ ord1 ↔ x ∈ ord2) :
    DataEquiv (kahnStep d1 ord1) (kahnStep d2 ord2) := by
  refine ⟨?_, ?_, ?_, ?_⟩
  · rw [keysOf_kahnStep]
    exact h.nd1.filter _
  · rw [keysOf_kahnStep]
    exact h.nd2.filter _
  · intro k
    rw [keysOf_kahnStep, keysOf_kahnStep, List.mem_filter, List.mem_filter]
    simp only [decide_eq_true_eq]
    constructor
    · rintro ⟨hk, hno⟩
      exact ⟨(h.keys_iff k).mp hk, fun hin => hno ((hord k).mpr hin)⟩
    · rintro ⟨hk, hno⟩
      exact ⟨(h.keys_iff k).mpr hk, fun hin => hno ((hord k).mp hin)⟩
  · intro k b
    rw [mem_lookupD_kahnStep h.nd1, mem_lookupD_kahnStep h.nd2]
    constructor
    · rintro ⟨hk, hb, hbl⟩
      exact ⟨fun hin => hk ((hord k).mpr hin), fun hin => hb ((hord b).mpr hin),
        (h.deps_iff k b).mp hbl⟩
    · rintro ⟨hk, hb, hbl⟩
      exact ⟨fun hin => hk ((hord k).mp hin), fun hin => hb ((hord b).mp hin),
        (h.deps_iff k b).mpr hbl⟩

theorem kahnFuel_equiv : ∀ (f1 : Nat) (d1 : Graph) (f2 : Nat) (d2 : Graph),
    d1.length ≤ f1 → d2.length ≤ f2 → DataEquiv d1 d2 →
    (kahnFuel f1 d1 = none ∧ kahnFuel f2 d2 = none) ∨
    (∃ L1 L2, kahnFuel f1 d1 = some L1 ∧ kahnFuel f2 d2 = some L2 ∧
      List.Forall₂ List.Perm L1 L2) := by
  intro f1
  induction f1 with
  | zero =>
    intro d1 f2 d2 hl1 hl2 heq
    have hd1 : d1 = [] := List.length_eq_zero.mp (Nat.le_zero.mp hl1)
    have hd2 : d2 = [] := heq.nil_iff.mp hd1
    subst hd1
    subst hd2
    right
    refine ⟨[], [], rfl, ?_, List.Forall₂.nil⟩
    cases f2 <;> rfl
  | succ n ih =>
    intro d1 f2 d2 hl1 hl2 heq
    by_cases hd1 : d1 = []
    · have hd2 : d2 = [] := heq.nil_iff.mp hd1
      subst hd1
      subst hd2
      right
      refine ⟨[], [], rfl, ?_, List.Forall₂.nil⟩
      cases f2 <;> rfl
    · have hd2 : d2 ≠ [] := fun he => hd1 (heq.nil_iff.mpr he)
      cases f2 with
      | zero => exact absurd (List.length_eq_zero.mp (Nat.le_zero.mp hl2)) hd2
      | succ m =>
        have heq1 : kahnFuel (n + 1) d1 = (if orderedKeys d1 = [] then none
            else (kahnFuel n (kahnStep d1 (orderedKeys d1))).map
              (fun rest => orderedKeys d1 :: rest)) := by
          simp only [kahnFuel, if_neg hd1]
        have heq2 : kahnFuel (m + 1) d2 = (if orderedKeys d2 = [] then none
            else (kahnFuel m (kahnStep d2 (orderedKeys d2))).map
              (fun rest => orderedKeys d2 :: rest)) := by
          simp only [kahnFuel, if_neg hd2]
        rw [heq1, heq2]
        have hordperm := orderedKeys_perm_of_equiv heq
        by_cases hord1 : orderedKeys d1 = []
        · have hord2 : orderedKeys d2 = [] := by
            rw [hord1] at hordperm
            exact (hordperm.symm).eq_nil
          rw [if_pos hord1, if_pos hord2]
          exact Or.inl ⟨rfl, rfl⟩
        · have hord2 : orderedKeys d2 ≠ [] := by
            intro he
            rw [he] at hordperm
            exact hord1 hordperm.eq_nil
          rw [if_neg hord1, if_neg hord2]
          have hstepeq : DataEquiv (kahnStep d1 (orderedKeys d1))
              (kahnStep d2 (orderedKeys d2)) :=
            equiv_kahnStep heq (fun x => hordperm.mem_iff)
          have hlen1 : (kahnStep d1 (orderedKeys d1)).length ≤ n := by
            have hlt := length_kahnStep_lt hord1
            omega
          have hlen2 : (kahnStep d2 (orderedKeys d2)).length ≤ m := by
            have hlt := length_kahnStep_lt hord2
            omega
          rcases ih _ m _ hlen1 hlen2 hstepeq with ⟨hn1, hn2⟩ |
            ⟨L1, L2, hs1, hs2, hf⟩
          · rw [hn1, hn2]
            exact Or.inl ⟨rfl, rfl⟩
          · rw [hs1, hs2]
            right
            exact ⟨_, _, rfl, rfl, List.Forall₂.cons hordperm hf⟩

theorem flatten_sort_eq {r1 r2 : Registry} (hp : ∀ t, prioOf r1 t = prioOf r2 t)
    {L1 L2 : List (List String)} (h : List.Forall₂ List.Perm L1 L2) :
    (L1.map (sortPrio r1)).flatten = (L2.map (sortPrio r2)).flatten := by
  induction h with
  | nil => rfl
  | cons h12 hrest ih =>
    rw [List.map_cons, List.map_cons, List.flatten_cons, List.flatten_cons, ih,
      sortPrio_congr hp h12]

theorem equiv_prepare {d1 d2 : Graph} (h : DataEquiv d1 d2) :
    DataEquiv (prepare d1) (prepare d2) := by
  refine ⟨keysOf_prepare_nodup h.nd1, keysOf_prepare_nodup h.nd2, ?_, ?_⟩
  · intro k
    rw [mem_keysOf_prepare h.nd1, mem_keysOf_prepare h.nd2]
    refine or_congr (h.keys_iff k) ?_
    constructor
    · rintro ⟨a, ha, hne⟩
      exact ⟨a, (h.deps_iff a k).mp ha, hne⟩
    · rintro ⟨a, ha, hne⟩
      exact ⟨a, (h.deps_iff a k).mpr ha, hne⟩
  · intro k b
    rw [mem_lookupD_prepare, mem_lookupD_prepare]
    exact and_congr (h.deps_iff k b) Iff.rfl

theorem equiv_regGraph {r1 r2 : Registry} (h : SameContents r1 r2) :
    DataEquiv (regGraph r1) (regGraph r2) := by
  unfold regGraph
  refine ⟨keysOf_merge_nodup h.wf1.1 h.wf1.2, keysOf_merge_nodup h.wf2.1 h.wf2.2,
    ?_, ?_⟩
  · intro k
    rw [mem_keysOf_merge, mem_keysOf_merge]
    exact or_congr (h.hard_keys k) (h.soft_keys k)
  · intro k b
    rw [mem_lookupD_merge, mem_lookupD_merge]
    exact or_congr (h.hard_deps k b) (h.soft_deps k b)

/-- C8: the Order Calculator is deterministic — two invocations over the same
registry (the same hard-edge sets, soft-edge sets and priorities, regardless
of the iteration order of Python's dicts and sets) return equal sequences. -/
theorem calculate_dependencies_deterministic (r1 r2 : Registry)
    (h : SameContents r1 r2) :
    calculate_dependencies r1 = calculate_dependencies r2 := by
  have hprep : DataEquiv (prepare (regGraph r1)) (prepare (regGraph r2)) :=
    equiv_prepare (equiv_regGraph h)
  have e1 : calculate_dependencies r1 =
      (kahnFuel (prepare (regGraph r1)).length (prepare (regGraph r1))).map
        (fun layers => (layers.map (fun g => sortPrio r1 g)).flatten) := rfl
  have e2 : calculate_dependencies r2 =
      (kahnFuel (prepare (regGraph r2)).length (prepare (regGraph r2))).map
        (fun layers => (layers.map (fun g => sortPrio r2 g)).flatten) := rfl
  rw [e1, e2]
  rcases kahnFuel_equiv _ _ _ _ (le_refl _) (le_refl _) hprep with ⟨hn1, hn2⟩ |
    ⟨L1, L2, hs1, hs2, hf⟩
  · rw [hn1, hn2]
    rfl
  · rw [hs1, hs2]
    simp only [Option.map_some']
    exact congrArg some (flatten_sort_eq h.prio hf)

theorem lookup_cons_eval {β : Type} (k a : String) (v : β) (l : List (String × β)) :
    List.lookup k ((a, v) :: l) = if k = a then some v else List.lookup k l := by
  by_cases h : k = a
  · subst h
    simp [List.lookup]
  · simp [List.lookup, beq_eq_false_iff_ne.mpr h, h]

theorem calculate_dependencies_deterministic_witness :
    SameContents ⟨[("a", ["b", "c"])], [], []⟩ ⟨[("a", ["c", "b"])], [], []⟩ ∧
    calculate_dependencies ⟨[("a", ["b", "c"])], [], []⟩ =
      calculate_dependencies ⟨[("a", ["c", "b"])], [], []⟩ :=
  have hsc : SameContents ⟨[("a", ["b", "c"])], [], []⟩
      ⟨[("a", ["c", "b"])], [], []⟩ :=
    ⟨by decide, by decide, fun k => Iff.rfl,
      by
        intro k b
        unfold lookupD
        rw [lookup_cons_eval, lookup_cons_eval]
        by_cases hk : k = "a"
        · simp only [if_pos hk, Option.getD_some]
          constructor <;> intro hb <;> simp at hb ⊢ <;> tauto
        · simp [if_neg hk],
      fun k => Iff.rfl, fun k b => Iff.rfl, fun t => rfl⟩
  ⟨hsc, calculate_dependencies_deterministic _ _ hsc⟩

end Nose2dep
